import Mathlib

/-!
# Terramate hierarchical configuration engine: a verification development

This file shallowly embeds the parts of the terramate source that the
verified properties are about:

* `assignSet` / `parseStack` (hcl/hcl.go) — stack attribute sets,
* `handleImport` (hcl/hcl.go) — import resolution rules,
* the hierarchical globals loader and fixed-point resolver (globals.go),
* the code generator pipeline (generate/generate.go and the generate-block
  loaders of generate/genfile and generate/genfilehcl),
* the token-level partial evaluation engine (hcl/eval partial evaluator).

Go maps are embedded as association lists; Go error returns are embedded as
`Except`; error aggregation (`errors.L()`) is collapsed to the first error,
which preserves the success/failure observable that the theorems are about.
-/

/-! ## cty values

Values produced by expression evaluation (strings, numbers, booleans, null,
lists/tuples and objects), mirroring the `cty.Value` types the source
manipulates. Numbers are embedded as integers (no claim depends on
non-integral numerics). -/

inductive Value where
  | str (s : String)
  | num (n : Int)
  | bool (b : Bool)
  | vnull
  | list (elems : List Value)
  | object (fields : List (String × Value))
deriving Repr

/-- Lexicographic comparison of character lists, the order `sort.Strings`
sorts by (byte-wise in Go; character-wise here, which agrees on ASCII). -/
def charsLe : List Char → List Char → Bool
  | [], _ => true
  | _ :: _, [] => false
  | a :: as, b :: bs =>
    if a.toNat < b.toNat then true
    else if b.toNat < a.toNat then false
    else charsLe as bs

/-- Lexicographic string comparison used for sorting. -/
def strLeb (a b : String) : Bool :=
  charsLe a.data b.data

/-- The element loop of `assignSet`: walks the list elements, rejecting
non-string elements and duplicated strings, collecting the values seen so
far (the Go code collects them in a `map[string]struct{}`; here the set of
keys is kept as a list). Error aggregation is collapsed to the first
error. -/
def collectSetElems : List Value → List String → Except String (List String)
  | [], values => .ok values
  | elem :: rest, values =>
    match elem with
    | .str s =>
      if s ∈ values then
        .error "duplicated entry in field of type set(string)"
      else
        collectSetElems rest (values ++ [s])
    | _ => .error "field must be a set(string): element has wrong type"

/-- `assignSet(name, target, val)`: null leaves the target unchanged; a
non-list value is a schema error; otherwise the validated elements are
sorted lexicographically and replace the target. -/
def assignSet (target : List String) (val : Value) : Except String (List String) :=
  match val with
  | .vnull => .ok target
  | .list elems => do
    let values ← collectSetElems elems []
    .ok (List.insertionSort (fun a b => strLeb a b = true) values)
  | _ => .error "field must be a set(string)"

/-! ## parseStack (hcl/hcl.go)

The `stack` block parser: every attribute expression has already been
evaluated by the evaluation context, so a parsed attribute is embedded as a
name/value pair. Nested blocks inside `stack` are unrecognized (an error).
-/

/-- Stack record being filled by `parseStack`. -/
structure Stack where
  id : Option String
  name : String
  description : String
  after : List String
  before : List String
  wants : List String
  watch : List String
deriving Repr, DecidableEq

/-- The empty stack record `parseStack` starts from. -/
def Stack.empty : Stack :=
  { id := none, name := "", description := "", after := [], before := [],
    wants := [], watch := [] }

/-- `NewStackID` validation: the id must match `^[A-Za-z0-9_-]{1,64}$`. -/
def validStackID (s : String) : Bool :=
  s.length ≥ 1 && s.length ≤ 64 &&
    s.toList.all (fun c =>
      (c ≥ "a".toList.head! && c ≤ "z".toList.head!) ||
      (c ≥ "A".toList.head! && c ≤ "Z".toList.head!) ||
      (c ≥ "0".toList.head! && c ≤ "9".toList.head!) ||
      c = Char.ofNat 95 || c = Char.ofNat 45)

/-- One iteration of the `parseStack` attribute loop, dispatching on the
attribute name. -/
def parseStackAttr (st : Stack) (name : String) (val : Value) :
    Except String Stack :=
  match name with
  | "id" =>
    match val with
    | .str s =>
      if validStackID s then .ok { st with id := some s }
      else .error "invalid stack id"
    | _ => .error "field stack.id must be a string"
  | "name" =>
    match val with
    | .str s => .ok { st with name := s }
    | _ => .error "field stack.name must be a string"
  | "after" => do
    let l ← assignSet st.after val
    .ok { st with after := l }
  | "before" => do
    let l ← assignSet st.before val
    .ok { st with before := l }
  | "wants" => do
    let l ← assignSet st.wants val
    .ok { st with wants := l }
  | "watch" => do
    let l ← assignSet st.watch val
    .ok { st with watch := l }
  | "description" =>
    match val with
    | .str s => .ok { st with description := s }
    | _ => .error "field stack.description must be a string"
  | _ => .error "unrecognized attribute"

/-- The attribute loop of `parseStack`. -/
def parseStackAttrs (st : Stack) : List (String × Value) → Except String Stack
  | [] => .ok st
  | (name, val) :: rest => do
    let st2 ← parseStackAttr st name val
    parseStackAttrs st2 rest

/-- `parseStack`: nested blocks are unrecognized; then the attributes are
processed in order (the source sorts raw attributes by name first; the
order does not affect any property proved here). -/
def parseStack (blocks : List String) (attrs : List (String × Value)) :
    Except String Stack :=
  match blocks with
  | _ :: _ => .error "unrecognized block"
  | [] => parseStackAttrs Stack.empty attrs

/-! ### Properties of assignSet / parseStack (claim C10) -/

/-- The sortedness/no-duplicates property the stack set attributes enjoy. -/
def SetOK (l : List String) : Prop :=
  l.Sorted (fun a b => strLeb a b = true) ∧ l.Nodup

/-- All four ordered sets of a stack record are sorted and duplicate-free. -/
def stackSetsSortedNodup (st : Stack) : Prop :=
  SetOK st.after ∧ SetOK st.before ∧ SetOK st.wants ∧ SetOK st.watch

theorem charsLe_total : ∀ as bs : List Char,
    charsLe as bs = true ∨ charsLe bs as = true := by
  intro as
  induction as with
  | nil => intro bs; left; rfl
  | cons a as2 ih =>
    intro bs
    cases bs with
    | nil => right; rfl
    | cons b bs2 =>
      simp only [charsLe]
      rcases Nat.lt_trichotomy a.toNat b.toNat with h | h | h
      · left; simp [h]
      · have hba : ¬ b.toNat < a.toNat := by omega
        have hab : ¬ a.toNat < b.toNat := by omega
        rcases ih bs2 with h2 | h2
        · left; simp [hab, hba, h2]
        · right; simp [hab, hba, h2]
      · right; simp [h]

theorem charsLe_trans : ∀ as bs cs : List Char,
    charsLe as bs = true → charsLe bs cs = true → charsLe as cs = true := by
  intro as
  induction as with
  | nil => intro bs cs _ _; rfl
  | cons a as2 ih =>
    intro bs cs h1 h2
    cases bs with
    | nil => simp [charsLe] at h1
    | cons b bs2 =>
      cases cs with
      | nil => simp [charsLe] at h2
      | cons c cs2 =>
        simp only [charsLe] at h1 h2 ⊢
        rcases Nat.lt_trichotomy a.toNat b.toNat with hab | hab | hab <;>
          rcases Nat.lt_trichotomy b.toNat c.toNat with hbc | hbc | hbc
        all_goals
          first
          | (simp only [show a.toNat < c.toNat from by omega, if_pos])
          | skip
        all_goals
          try (exfalso; revert h1 h2; simp [hab, hbc]; omega)
        have hac1 : ¬ a.toNat < c.toNat := by omega
        have hac2 : ¬ c.toNat < a.toNat := by omega
        simp only [hac1, hac2, if_neg, ite_false, if_false]
        have e1 : charsLe as2 bs2 = true := by
          revert h1; simp [show ¬ a.toNat < b.toNat from by omega,
            show ¬ b.toNat < a.toNat from by omega]
        have e2 : charsLe bs2 cs2 = true := by
          revert h2; simp [show ¬ b.toNat < c.toNat from by omega,
            show ¬ c.toNat < b.toNat from by omega]
        exact ih bs2 cs2 e1 e2

instance strLeb_isTotal : IsTotal String (fun a b => strLeb a b = true) :=
  ⟨fun a b => charsLe_total a.data b.data⟩

instance strLeb_isTrans : IsTrans String (fun a b => strLeb a b = true) :=
  ⟨fun a b c => charsLe_trans a.data b.data c.data⟩

theorem collectSetElems_nodup (l : List Value) (acc out : List String)
    (h : collectSetElems l acc = .ok out) (hacc : acc.Nodup) : out.Nodup := by
  induction l generalizing acc with
  | nil => simp only [collectSetElems] at h; cases h; exact hacc
  | cons elem rest ih =>
    cases elem with
    | str s =>
      simp only [collectSetElems] at h
      by_cases hs : s ∈ acc
      · simp [hs] at h
      · simp only [hs, if_neg, ite_false] at h
        refine ih (acc ++ [s]) h ?_
        refine List.nodup_append.mpr ⟨hacc, List.nodup_singleton s, ?_⟩
        intro a ha hb
        simp only [List.mem_singleton] at hb
        subst hb
        exact hs ha
    | num n => simp [collectSetElems] at h
    | bool b => simp [collectSetElems] at h
    | vnull => simp [collectSetElems] at h
    | list es => simp [collectSetElems] at h
    | object fs => simp [collectSetElems] at h

theorem assignSet_ok (tgt : List String) (val : Value) (out : List String)
    (h : assignSet tgt val = .ok out) (htgt : SetOK tgt) : SetOK out := by
  cases val with
  | vnull => simp only [assignSet] at h; cases h; exact htgt
  | list elems =>
    simp only [assignSet, bind, Except.bind] at h
    cases hc : collectSetElems elems [] with
    | error e => rw [hc] at h; cases h
    | ok values =>
      rw [hc] at h
      cases h
      constructor
      · exact List.sorted_insertionSort _ values
      · exact (List.perm_insertionSort _ values).nodup_iff.mpr
          (collectSetElems_nodup elems [] values hc (List.nodup_nil))
  | str s => simp [assignSet] at h
  | num n => simp [assignSet] at h
  | bool b => simp [assignSet] at h
  | object fs => simp [assignSet] at h

theorem parseStackAttr_preserves (st st2 : Stack) (name : String) (val : Value)
    (h : parseStackAttr st name val = .ok st2)
    (hst : stackSetsSortedNodup st) : stackSetsSortedNodup st2 := by
  obtain ⟨h1, h2, h3, h4⟩ := hst
  unfold parseStackAttr at h
  split at h
  · -- id
    cases val <;> simp_all
    split at h <;> simp_all
    cases h; exact ⟨h1, h2, h3, h4⟩
  · -- name
    cases val <;> simp_all
    cases h; exact ⟨h1, h2, h3, h4⟩
  · -- after
    simp only [bind, Except.bind] at h
    cases ha : assignSet st.after val with
    | error e => rw [ha] at h; cases h
    | ok l =>
      rw [ha] at h; cases h
      exact ⟨assignSet_ok _ _ _ ha h1, h2, h3, h4⟩
  · -- before
    simp only [bind, Except.bind] at h
    cases ha : assignSet st.before val with
    | error e => rw [ha] at h; cases h
    | ok l =>
      rw [ha] at h; cases h
      exact ⟨h1, assignSet_ok _ _ _ ha h2, h3, h4⟩
  · -- wants
    simp only [bind, Except.bind] at h
    cases ha : assignSet st.wants val with
    | error e => rw [ha] at h; cases h
    | ok l =>
      rw [ha] at h; cases h
      exact ⟨h1, h2, assignSet_ok _ _ _ ha h3, h4⟩
  · -- watch
    simp only [bind, Except.bind] at h
    cases ha : assignSet st.watch val with
    | error e => rw [ha] at h; cases h
    | ok l =>
      rw [ha] at h; cases h
      exact ⟨h1, h2, h3, assignSet_ok _ _ _ ha h4⟩
  · -- description
    cases val <;> simp_all
    cases h; exact ⟨h1, h2, h3, h4⟩
  · -- unknown
    cases h

theorem parseStackAttrs_preserves (attrs : List (String × Value))
    (st st2 : Stack) (h : parseStackAttrs st attrs = .ok st2)
    (hst : stackSetsSortedNodup st) : stackSetsSortedNodup st2 := by
  induction attrs generalizing st with
  | nil => simp only [parseStackAttrs] at h; cases h; exact hst
  | cons a rest ih =>
    obtain ⟨name, val⟩ := a
    simp only [parseStackAttrs, bind, Except.bind] at h
    cases ha : parseStackAttr st name val with
    | error e => rw [ha] at h; cases h
    | ok stm =>
      rw [ha] at h
      exact ih stm h (parseStackAttr_preserves st stm name val ha hst)

theorem collectSetElems_mem_error (l : List Value) (s : String)
    (acc : List String) (hs : s ∈ acc) :
    ∀ l2 out, collectSetElems (l ++ Value.str s :: l2) acc ≠ .ok out := by
  induction l generalizing acc with
  | nil =>
    intro l2 out h
    simp [collectSetElems, hs] at h
  | cons e rest ih =>
    intro l2 out h
    cases e with
    | str t =>
      simp only [List.cons_append, collectSetElems] at h
      by_cases ht : t ∈ acc
      · simp [ht] at h
      · simp only [ht, ite_false] at h
        exact ih (acc ++ [t]) (List.mem_append_left _ hs) l2 out h
    | num n => simp [collectSetElems] at h
    | bool b => simp [collectSetElems] at h
    | vnull => simp [collectSetElems] at h
    | list es => simp [collectSetElems] at h
    | object fs => simp [collectSetElems] at h

theorem collectSetElems_dup_error (l1 : List Value) (s : String)
    (l2 l3 : List Value) (acc : List String) :
    ∀ out, collectSetElems (l1 ++ Value.str s :: (l2 ++ Value.str s :: l3)) acc ≠
      .ok out := by
  induction l1 generalizing acc with
  | nil =>
    intro out h
    simp only [List.nil_append, collectSetElems] at h
    by_cases hs : s ∈ acc
    · simp [hs] at h
    · simp only [hs, ite_false] at h
      exact collectSetElems_mem_error l2 s (acc ++ [s])
        (List.mem_append_right _ (List.mem_singleton_self s)) l3 out h
  | cons e rest ih =>
    intro out h
    cases e with
    | str t =>
      simp only [List.cons_append, collectSetElems] at h
      by_cases ht : t ∈ acc
      · simp [ht] at h
      · simp only [ht, ite_false] at h
        exact ih (acc ++ [t]) out h
    | num n => simp [collectSetElems] at h
    | bool b => simp [collectSetElems] at h
    | vnull => simp [collectSetElems] at h
    | list es => simp [collectSetElems] at h
    | object fs => simp [collectSetElems] at h

theorem assignSet_dup_error (tgt : List String) (l1 : List Value) (s : String)
    (l2 l3 : List Value) :
    ∀ out, assignSet tgt
      (Value.list (l1 ++ Value.str s :: (l2 ++ Value.str s :: l3))) ≠ .ok out := by
  intro out h
  simp only [assignSet, bind, Except.bind] at h
  cases hc : collectSetElems (l1 ++ Value.str s :: (l2 ++ Value.str s :: l3)) [] with
  | error e => rw [hc] at h; cases h
  | ok values => exact collectSetElems_dup_error l1 s l2 l3 [] values hc

theorem parseStackAttrs_dup_error (attrs : List (String × Value)) (st : Stack)
    (name : String) (l1 : List Value) (s : String) (l2 l3 : List Value)
    (hname : name = "after" ∨ name = "before" ∨ name = "wants" ∨ name = "watch")
    (hmem : (name, Value.list (l1 ++ Value.str s :: (l2 ++ Value.str s :: l3))) ∈ attrs) :
    ∀ out, parseStackAttrs st attrs ≠ .ok out := by
  induction attrs generalizing st with
  | nil => cases hmem
  | cons a rest ih =>
    intro out h
    simp only [parseStackAttrs, bind, Except.bind] at h
    cases ha : parseStackAttr st a.1 a.2 with
    | error e => rw [ha] at h; cases h
    | ok stm =>
      rw [ha] at h
      rcases List.mem_cons.mp hmem with heq | hrest
      · subst heq
        rcases hname with h1 | h1 | h1 | h1 <;> subst h1 <;>
          simp only [parseStackAttr, bind, Except.bind] at ha
        · cases hb : assignSet st.after
              (Value.list (l1 ++ Value.str s :: (l2 ++ Value.str s :: l3))) with
          | error e => rw [hb] at ha; cases ha
          | ok l => exact assignSet_dup_error _ l1 s l2 l3 l hb
        · cases hb : assignSet st.before
              (Value.list (l1 ++ Value.str s :: (l2 ++ Value.str s :: l3))) with
          | error e => rw [hb] at ha; cases ha
          | ok l => exact assignSet_dup_error _ l1 s l2 l3 l hb
        · cases hb : assignSet st.wants
              (Value.list (l1 ++ Value.str s :: (l2 ++ Value.str s :: l3))) with
          | error e => rw [hb] at ha; cases ha
          | ok l => exact assignSet_dup_error _ l1 s l2 l3 l hb
        · cases hb : assignSet st.watch
              (Value.list (l1 ++ Value.str s :: (l2 ++ Value.str s :: l3))) with
          | error e => rw [hb] at ha; cases ha
          | ok l => exact assignSet_dup_error _ l1 s l2 l3 l hb
      · exact ih stm hrest out h

/-- C10: for every successfully parsed `stack` block, each of the After,
Before, Wants and Watch lists is sorted lexicographically with no duplicate
entries, regardless of the order in which entries were written; and a
duplicated entry in one of those source attributes makes parsing fail with
an error instead of being silently deduplicated. -/
theorem parseStack_sets_sorted_nodup (blocks : List String)
    (attrs : List (String × Value)) :
    (∀ st, parseStack blocks attrs = .ok st → stackSetsSortedNodup st) ∧
    (∀ name l1 s l2 l3,
      (name = "after" ∨ name = "before" ∨ name = "wants" ∨ name = "watch") →
      (name, Value.list (l1 ++ Value.str s :: (l2 ++ Value.str s :: l3))) ∈ attrs →
      ∃ msg, parseStack blocks attrs = .error msg) := by
  constructor
  · intro st h
    cases blocks with
    | cons b bs => simp [parseStack] at h
    | nil =>
      simp only [parseStack] at h
      refine parseStackAttrs_preserves attrs Stack.empty st h ?_
      refine ⟨⟨List.sorted_nil, List.nodup_nil⟩, ⟨List.sorted_nil, List.nodup_nil⟩,
        ⟨List.sorted_nil, List.nodup_nil⟩, ⟨List.sorted_nil, List.nodup_nil⟩⟩
  · intro name l1 s l2 l3 hname hmem
    cases blocks with
    | cons b bs => exact ⟨"unrecognized block", rfl⟩
    | nil =>
      simp only [parseStack]
      cases hp : parseStackAttrs Stack.empty attrs with
      | error msg => exact ⟨msg, rfl⟩
      | ok st =>
        exact absurd hp (parseStackAttrs_dup_error attrs Stack.empty name l1 s l2 l3 hname hmem st)

/-- Witness for C10 at concrete inputs: parsing a stack block whose
`after` attribute is written out of order produces the sorted,
duplicate-free list, and a duplicated `wants` entry fails. -/
theorem parseStack_sets_sorted_nodup_witness :
    stackSetsSortedNodup
      { Stack.empty with after := ["a", "b"] } ∧
    (∃ msg, parseStack []
      [("wants", Value.list [Value.str "x", Value.str "x"])] = .error msg) := by
  constructor
  · refine (parseStack_sets_sorted_nodup []
      [("after", Value.list [Value.str "b", Value.str "a"])]).1
      { Stack.empty with after := ["a", "b"] } ?_
    rfl
  · exact (parseStack_sets_sorted_nodup []
      [("wants", Value.list [Value.str "x", Value.str "x"])]).2
      "wants" [] "x" [] [] (by simp) (by simp)

/-! ## Import resolution: handleImport (hcl/hcl.go)

`handleImport` resolves an `import` block's `source` path and rejects
structurally invalid imports. The Go code uses `path/filepath`; the path
helpers below implement its behavior for slash-separated paths (the
claims and all inputs considered use clean absolute directories). -/

/-- Boolean list prefix test (`strings.HasPrefix` works on the underlying
bytes; characters here, which agrees on ASCII). -/
def listStartsWith : List Char → List Char → Bool
  | _, [] => true
  | [], _ :: _ => false
  | a :: as, b :: bs => a = b && listStartsWith as bs

/-- `strings.HasPrefix(s, p)`. -/
def strStartsWith (s p : String) : Bool :=
  listStartsWith s.data p.data

/-- Split a path into `/`-separated components. -/
def splitSlashAux : List Char → List Char → List String
  | [], cur => [String.mk cur.reverse]
  | c :: cs, cur =>
    if c = '/' then String.mk cur.reverse :: splitSlashAux cs []
    else splitSlashAux cs (c :: cur)

/-- Components of a slash-separated path. -/
def splitSlash (s : String) : List String :=
  splitSlashAux s.data []

/-- `filepath.IsAbs`: the path begins with a slash. -/
def isAbsPath (s : String) : Bool :=
  match s.data with
  | c :: _ => c = '/'
  | [] => false

/-- The component normalization of `filepath.Clean`: empty and `.`
components are dropped and `..` pops the previous component (inputs in the
claims are absolute, where a leading `..` is dropped as Go does at a
root). -/
def cleanComponents : List String → List String → List String
  | [], acc => acc.reverse
  | c :: rest, acc =>
    if c = "" ∨ c = "." then cleanComponents rest acc
    else if c = ".." then
      match acc with
      | [] => cleanComponents rest []
      | _ :: as => cleanComponents rest as
    else cleanComponents rest (c :: acc)

/-- Joins components back with slashes. -/
def joinComps : List String → String
  | [] => ""
  | [c] => c
  | c :: rest => c ++ "/" ++ joinComps rest

/-- Rebuild a cleaned path from its components. -/
def cleanPath (abs : Bool) (comps : List String) : String :=
  let cs := cleanComponents comps []
  if abs then "/" ++ joinComps cs
  else if cs = [] then "." else joinComps cs

/-- `filepath.Join(a, b)` (clean slash paths). -/
def goJoin (a b : String) : String :=
  cleanPath (isAbsPath a) (splitSlash a ++ splitSlash b)

/-- `filepath.Dir(p)` (clean slash paths). -/
def goDir (p : String) : String :=
  cleanPath (isAbsPath p) (splitSlash p).dropLast

/-- `filepath.Base(p)` (clean slash paths). -/
def goBase (p : String) : String :=
  match ((splitSlash p).filter (fun c => c ≠ "")).getLast? with
  | some c => c
  | none => if isAbsPath p then "/" else "."

/-- The resolved directory of an `import.source`: project-absolute sources
resolve under the project root, relative sources under the importing
directory. -/
def resolvedSrcDir (rootdir dir src : String) : String :=
  if isAbsPath (goDir src) then goJoin rootdir (goDir src)
  else goJoin dir (goDir src)

/-- The resolved file of an `import.source`. -/
def resolvedSrcFile (rootdir dir src : String) : String :=
  goJoin (resolvedSrcDir rootdir dir src) (goBase src)

/-- Outcome of `handleImport` up to the sub-parser call: a schema error, an
`Import` error, or proceeding to parse the resolved file with a sub-parser
rooted at the resolved directory (whose result is then merged). -/
inductive ImportOutcome where
  | errSchema (msg : String)
  | errImport (msg : String)
  | subParse (srcFile : String) (srcDir : String)
deriving Repr, DecidableEq

/-- `handleImport`: evaluates `import.source` (embedded as an already
evaluated optional value, `none` meaning the static evaluation failed),
resolves it, applies the structural rules, and otherwise hands the file to
a sub-parser. -/
def handleImport (rootdir dir : String) (srcVal : Option Value)
    (parsedFiles : List String) : ImportOutcome :=
  match srcVal with
  | none => .errSchema "failed to evaluate import.source"
  | some (.str src) =>
    let srcDir := resolvedSrcDir rootdir dir src
    if srcDir = dir then
      .errImport "importing files in the same directory is not permitted"
    else if strStartsWith dir srcDir then
      .errImport "importing files in the same tree is not permitted"
    else
      let srcFile := goJoin srcDir (goBase src)
      if srcFile ∈ parsedFiles then
        .errImport "file already parsed"
      else .subParse srcFile srcDir
  | some _ => .errSchema "import.source must be a string"

/-- The claim's reading of "the importing directory lies inside the
resolved source's directory tree": path-component descendance. -/
def isPathDescendant (dir srcDir : String) : Bool :=
  dir = srcDir || strStartsWith dir (srcDir ++ "/")

/-! ### Properties of handleImport (claim C9) -/

/-- C9 counterexample: with root `/root`, importing dir `/root/ab` and
source `/a/cfg.tm` (resolved dir `/root/a`), none of the claim's three
error cases holds — the resolved dir differs from the importing dir, the
importing dir is not inside the resolved dir's tree, and the file is not in
the parsed set — yet `handleImport` rejects the import (the code tests a
plain string prefix, and `/root/ab` starts with `/root/a`), so the file is
not handed to the sub-parser. -/
theorem handleImport_prefix_counterexample :
    handleImport "/root" "/root/ab" (some (Value.str "/a/cfg.tm")) [] =
      .errImport "importing files in the same tree is not permitted" ∧
    resolvedSrcDir "/root" "/root/ab" "/a/cfg.tm" ≠ "/root/ab" ∧
    isPathDescendant "/root/ab" (resolvedSrcDir "/root" "/root/ab" "/a/cfg.tm")
      = false ∧
    resolvedSrcFile "/root" "/root/ab" "/a/cfg.tm" ∉ ([] : List String) := by
  refine ⟨?_, ?_, ?_, ?_⟩ <;> decide

/-- C9 (amended): import resolution fails with an `Import` error exactly
when the resolved source directory equals the importing directory, or the
importing directory's path begins with the resolved source directory's
path as a plain string prefix (which covers every directory inside the
source's tree but also sibling directories whose name extends it), or the
resolved file is already in the shared parsed-files set; otherwise the
file is handed to a sub-parser rooted at the resolved directory and its
blocks are merged into the importer. -/
theorem handleImport_import_rules (rootdir dir src : String)
    (parsed : List String) :
    ((∃ msg, handleImport rootdir dir (some (Value.str src)) parsed =
        .errImport msg) ↔
      (resolvedSrcDir rootdir dir src = dir ∨
       strStartsWith dir (resolvedSrcDir rootdir dir src) = true ∨
       resolvedSrcFile rootdir dir src ∈ parsed)) ∧
    (resolvedSrcDir rootdir dir src ≠ dir →
     strStartsWith dir (resolvedSrcDir rootdir dir src) = false →
     resolvedSrcFile rootdir dir src ∉ parsed →
     handleImport rootdir dir (some (Value.str src)) parsed =
       .subParse (resolvedSrcFile rootdir dir src)
         (resolvedSrcDir rootdir dir src)) := by
  constructor
  · by_cases h1 : resolvedSrcDir rootdir dir src = dir
    · simp [handleImport, h1]
    · by_cases h2 : strStartsWith dir (resolvedSrcDir rootdir dir src) = true
      · simp [handleImport, h1, h2]
      · by_cases h3 : resolvedSrcFile rootdir dir src ∈ parsed
        · simp only [handleImport, h1, if_neg, ite_false, h2, if_false]
          simp only [resolvedSrcFile] at h3
          simp [h3, h1, h2, resolvedSrcFile]
        · simp only [handleImport, h1, ite_false, h2, if_false]
          simp only [resolvedSrcFile] at h3
          simp [h3, h1, h2, resolvedSrcFile]
  · intro h1 h2 h3
    simp only [resolvedSrcFile] at h3
    simp [handleImport, h1, h2, h3, resolvedSrcFile]

/-- Witness for the amended C9 at a concrete input: importing
`/lib/a.tm` from `/root/x` resolves to `/root/lib/a.tm` and proceeds to
the sub-parser. -/
theorem handleImport_import_rules_witness :
    handleImport "/root" "/root/x" (some (Value.str "/lib/a.tm")) [] =
      .subParse "/root/lib/a.tm" "/root/lib" := by
  have h := (handleImport_import_rules "/root" "/root/x" "/lib/a.tm" []).2
    (by decide) (by decide) (by decide)
  simpa using h

/-! ## Hierarchical globals (globals.go)

The globals resolver collects `globals` block attributes walking from the
stack directory up to the project root, merging child-first, and then
resolves them with a fixed-point loop. The HCL expressions stored in the
table are embedded as `GExpr`: literals, `global.*` / `terramate.*` /
other-namespace variable references, and a compound form (`pair`, standing
for any expression built from subexpressions, which is what the dependency
analysis cares about). `hclsyntax.Variables` becomes `GExpr.vars` and the
context evaluation (`evalctx.Eval`, backed by the HCL library) becomes
`evalGExpr`. -/

/-- Association list lookup (Go map read). -/
def lookupStr {α : Type} (k : String) : List (String × α) → Option α
  | [] => none
  | (k2, v) :: rest => if k2 = k then some v else lookupStr k rest

/-- Removes a key (Go map delete). -/
def eraseKey {α : Type} (k : String) : List (String × α) → List (String × α)
  | [] => []
  | (k2, v) :: rest =>
    if k2 = k then eraseKey k rest else (k2, v) :: eraseKey k rest

/-- Expressions appearing in `globals` blocks. -/
inductive GExpr where
  | lit (v : Value)
  | globalRef (name : String)
  | terramateRef (name : String)
  | nsRef (ns attr : String)
  | pair (a b : GExpr)
deriving Repr

/-- `hclsyntax.Variables`: root namespace and first attribute of every
variable reference in the expression. -/
def GExpr.vars : GExpr → List (String × String)
  | .lit _ => []
  | .globalRef n => [("global", n)]
  | .terramateRef n => [("terramate", n)]
  | .nsRef ns attr => [(ns, attr)]
  | .pair a b => a.vars ++ b.vars

/-- Full evaluation of a globals expression against the context namespaces
(`terramate` metadata and the currently evaluated `global` attributes);
`none` is an evaluation error (e.g. an undefined reference). -/
def evalGExpr (tm g : List (String × Value)) : GExpr → Option Value
  | .lit v => some v
  | .globalRef n => lookupStr n g
  | .terramateRef n => lookupStr n tm
  | .nsRef _ _ => none
  | .pair a b =>
    match evalGExpr tm g a, evalGExpr tm g b with
    | some x, some y => some (.list [x, y])
    | _, _ => none

/-- Errors of the globals subsystem. -/
inductive GlobalsErr where
  | unknownNamespace (ns : String)
  | undefinedGlobal (attr : String)
  | unableToEvaluate (n : Nat)
  | globalRedefined (name : String)
  | outOfFuel
deriving Repr, DecidableEq

/-- Verdict of the per-expression variable inspection in the fixed-point
loop. -/
inductive CheckResult where
  | fatal (e : GlobalsErr)
  | skip
  | proceed
deriving Repr, DecidableEq

/-- The variable inspection of one pending expression: unknown root
namespaces are fatal; a reference to a still-pending global skips the
expression for this pass; a reference to a global that is neither pending
nor evaluated is fatal. -/
def checkVars (ctxNs pendNames gNames : List String) :
    List (String × String) → CheckResult
  | [] => .proceed
  | (ns, attr) :: rest =>
    if ns ∉ ctxNs then .fatal (.unknownNamespace ns)
    else if ns ≠ "global" then checkVars ctxNs pendNames gNames rest
    else if attr ∈ pendNames then .skip
    else if attr ∉ gNames then .fatal (.undefinedGlobal attr)
    else checkVars ctxNs pendNames gNames rest

/-- One pass of the fixed-point loop (`range pendingExprs` in
`globalsExpr.eval`): `todo` is the iteration snapshot, `pend` the current
pending table, `g` the evaluated globals, `cnt` the number of expressions
evaluated so far in this pass. On success of one expression it is removed
from the pending table and the `global` namespace is refreshed; an
evaluation failure is transient and keeps the expression pending. -/
def globalsPass (tm : List (String × Value)) :
    List (String × GExpr) → List (String × GExpr) → List (String × Value) →
    Nat →
    Except GlobalsErr (List (String × GExpr) × List (String × Value) × Nat)
  | [], pend, g, cnt => .ok (pend, g, cnt)
  | (name, ex) :: todo, pend, g, cnt =>
    match checkVars ["terramate", "global"] (pend.map Prod.fst)
        (g.map Prod.fst) ex.vars with
    | .fatal e => .error e
    | .skip => globalsPass tm todo pend g cnt
    | .proceed =>
      match evalGExpr tm g ex with
      | none => globalsPass tm todo pend g cnt
      | some v => globalsPass tm todo (eraseKey name pend) ((name, v) :: g)
          (cnt + 1)

/-- The outer fixed-point loop (`for len(pendingExprs) > 0`), embedded
with explicit fuel counting the passes; the theorems below show that
`pend.length + 1` fuel never runs out, matching the Go loop that exits by
emptiness or by lack of progress. -/
def globalsEvalLoop (tm : List (String × Value)) :
    Nat → List (String × GExpr) → List (String × Value) →
    Except GlobalsErr (List (String × Value))
  | 0, _, _ => .error .outOfFuel
  | fuel + 1, pend, g =>
    if pend.isEmpty then .ok g
    else
      match globalsPass tm pend pend g 0 with
      | .error e => .error e
      | .ok (pend2, g2, cnt) =>
        if cnt = 0 then .error (.unableToEvaluate pend2.length)
        else globalsEvalLoop tm fuel pend2 g2

/-- `globalsExpr.eval`: seeds the context with the stack metadata and an
empty `global` namespace and runs the fixed-point loop over all collected
expressions. -/
def globalsExprEval (tm : List (String × Value))
    (exprs : List (String × GExpr)) :
    Except GlobalsErr (List (String × Value)) :=
  globalsEvalLoop tm (exprs.length + 1) exprs []

/-- The per-directory attribute collection of `loadStackGlobalsExprs`:
within a single directory level a name may be defined only once
(`GlobalRedefined`). -/
def addLevelExprs : List (String × GExpr) → List (String × GExpr) →
    Except GlobalsErr (List (String × GExpr))
  | [], acc => .ok acc
  | (name, ex) :: rest, acc =>
    if name ∈ acc.map Prod.fst then .error (.globalRedefined name)
    else addLevelExprs rest (acc ++ [(name, ex)])

/-- `globalsExpr.merge`: the parent's expressions are added only where the
child has not defined the name (child shadows parent). -/
def mergeGlobalsExprs (cur par : List (String × GExpr)) :
    List (String × GExpr) :=
  cur ++ par.filter (fun p => p.1 ∉ cur.map Prod.fst)

/-- `loadStackGlobalsExprs`: levels are listed stack-first (the recursion
parses the current directory and then merges the parent chain into it). -/
def loadStackGlobalsExprs : List (List (String × GExpr)) →
    Except GlobalsErr (List (String × GExpr))
  | [] => .ok []
  | lvl :: parents => do
    let cur ← addLevelExprs lvl []
    let par ← loadStackGlobalsExprs parents
    .ok (mergeGlobalsExprs cur par)

/-- `LoadStackGlobals`: load the expression table along the ancestor chain
and resolve it. -/
def loadStackGlobals (tm : List (String × Value))
    (levels : List (List (String × GExpr))) :
    Except GlobalsErr (List (String × Value)) := do
  let exprs ← loadStackGlobalsExprs levels
  globalsExprEval tm exprs

/-! ### Properties of the globals resolver (claims C2, C3) -/

/-- `g2` preserves every lookup that succeeds in `g`. -/
def SubMap (g g2 : List (String × Value)) : Prop :=
  ∀ k v, lookupStr k g = some v → lookupStr k g2 = some v

theorem SubMap.refl (g : List (String × Value)) : SubMap g g :=
  fun _ _ h => h

theorem SubMap.trans {g1 g2 g3 : List (String × Value)}
    (h1 : SubMap g1 g2) (h2 : SubMap g2 g3) : SubMap g1 g3 :=
  fun k v h => h2 k v (h1 k v h)

theorem lookupStr_some_of_mem_keys {α : Type} (k : String)
    (l : List (String × α)) (h : k ∈ l.map Prod.fst) :
    ∃ v, lookupStr k l = some v := by
  induction l with
  | nil => simp at h
  | cons p rest ih =>
    obtain ⟨k2, v⟩ := p
    by_cases he : k2 = k
    · exact ⟨v, by simp [lookupStr, he]⟩
    · simp only [List.map_cons, List.mem_cons] at h
      rcases h with h | h
      · exact absurd h.symm he
      · obtain ⟨w, hw⟩ := ih h
        exact ⟨w, by simp [lookupStr, he, hw]⟩

theorem lookupStr_mem {α : Type} (k : String) (v : α)
    (l : List (String × α)) (h : lookupStr k l = some v) : (k, v) ∈ l := by
  induction l with
  | nil => simp [lookupStr] at h
  | cons p rest ih =>
    obtain ⟨k2, v2⟩ := p
    simp only [lookupStr] at h
    by_cases he : k2 = k
    · rw [if_pos he] at h
      cases h
      subst he
      exact List.mem_cons_self _ _
    · rw [if_neg he] at h
      exact List.mem_cons_of_mem _ (ih h)

theorem lookupStr_keys_none {α : Type} (k : String) (l : List (String × α))
    (h : k ∉ l.map Prod.fst) : lookupStr k l = none := by
  induction l with
  | nil => rfl
  | cons p rest ih =>
    obtain ⟨k2, v2⟩ := p
    simp only [List.map_cons, List.mem_cons, not_or] at h
    have hk : ¬ (k2 = k) := fun he => h.1 he.symm
    simp only [lookupStr, if_neg hk]
    exact ih h.2

theorem mem_lookupStr {α : Type} (k : String) (v : α) (l : List (String × α))
    (hmem : (k, v) ∈ l) (hnd : (l.map Prod.fst).Nodup) :
    lookupStr k l = some v := by
  induction l with
  | nil => cases hmem
  | cons p rest ih =>
    obtain ⟨k2, v2⟩ := p
    simp only [List.map_cons, List.nodup_cons] at hnd
    rcases List.mem_cons.mp hmem with he | hm
    · cases he
      simp [lookupStr]
    · have hk : k2 ≠ k := by
        intro he
        subst he
        exact hnd.1 (List.mem_map.mpr ⟨(k2, v), hm, rfl⟩)
      simp only [lookupStr, if_neg hk]
      exact ih hm hnd.2

theorem evalGExpr_mono (tm g g2 : List (String × Value)) (e : GExpr)
    (hsub : SubMap g g2) (v : Value) (h : evalGExpr tm g e = some v) :
    evalGExpr tm g2 e = some v := by
  induction e generalizing v with
  | lit w => exact h
  | globalRef n => exact hsub n v h
  | terramateRef n => exact h
  | nsRef ns a => simp [evalGExpr] at h
  | pair a b iha ihb =>
    simp only [evalGExpr] at h ⊢
    cases ha : evalGExpr tm g a with
    | none => rw [ha] at h; cases h
    | some x =>
      rw [ha] at h
      cases hb : evalGExpr tm g b with
      | none => rw [hb] at h; cases h
      | some y =>
        rw [hb] at h
        rw [iha x ha, ihb y hb]
        exact h

/-- Hypothesis-side characterization of a globals expression whose
references are all to known root namespaces: every `global.*` reference
targets a name in `gAll`, every `terramate.*` reference a name in `tmKeys`,
and no other namespace is referenced. -/
def GExpr.RefsOK (gAll tmKeys : List String) : GExpr → Prop
  | .lit _ => True
  | .globalRef n => n ∈ gAll
  | .terramateRef n => n ∈ tmKeys
  | .nsRef _ _ => False
  | .pair a b => GExpr.RefsOK gAll tmKeys a ∧ GExpr.RefsOK gAll tmKeys b

theorem GExpr.refsOK_vars (K tmK : List String) (e : GExpr)
    (h : GExpr.RefsOK K tmK e) :
    ∀ p ∈ e.vars, (p.1 = "global" ∧ p.2 ∈ K) ∨
      (p.1 = "terramate" ∧ p.2 ∈ tmK) := by
  induction e with
  | lit v => intro p hp; simp [GExpr.vars] at hp
  | globalRef n =>
    intro p hp
    simp only [GExpr.vars, List.mem_singleton] at hp
    subst hp
    exact Or.inl ⟨rfl, h⟩
  | terramateRef n =>
    intro p hp
    simp only [GExpr.vars, List.mem_singleton] at hp
    subst hp
    exact Or.inr ⟨rfl, h⟩
  | nsRef ns a => cases h
  | pair a b iha ihb =>
    intro p hp
    simp only [GExpr.vars, List.mem_append] at hp
    rcases hp with hp | hp
    · exact iha h.1 p hp
    · exact ihb h.2 p hp

theorem checkVars_not_fatal (ctxNs pendN gN : List String)
    (vl : List (String × String))
    (h : ∀ p ∈ vl, p.1 ∈ ctxNs ∧ (p.1 = "global" → (p.2 ∈ pendN ∨ p.2 ∈ gN))) :
    checkVars ctxNs pendN gN vl = .skip ∨
      checkVars ctxNs pendN gN vl = .proceed := by
  induction vl with
  | nil => exact Or.inr rfl
  | cons p rest ih =>
    obtain ⟨ns, attr⟩ := p
    obtain ⟨hns, hattr⟩ := h (ns, attr) (List.mem_cons_self _ _)
    simp only [checkVars, if_neg (not_not_intro hns)]
    by_cases hg : ns = "global"
    · subst hg
      rw [if_neg (fun hc : ¬("global" = "global") => hc rfl)]
      rcases hattr rfl with hp | hgn
      · simp [hp]
      · by_cases hp : attr ∈ pendN
        · simp [hp]
        · rw [if_neg hp, if_neg (not_not_intro hgn)]
          exact ih (fun q hq => h q (List.mem_cons_of_mem _ hq))
    · rw [if_pos hg]
      exact ih (fun q hq => h q (List.mem_cons_of_mem _ hq))

theorem checkVars_proceed (ctxNs pendN gN : List String)
    (vl : List (String × String))
    (h : ∀ p ∈ vl, p.1 ∈ ctxNs ∧ (p.1 = "global" → (p.2 ∉ pendN ∧ p.2 ∈ gN))) :
    checkVars ctxNs pendN gN vl = .proceed := by
  induction vl with
  | nil => rfl
  | cons p rest ih =>
    obtain ⟨ns, attr⟩ := p
    obtain ⟨hns, hattr⟩ := h (ns, attr) (List.mem_cons_self _ _)
    simp only [checkVars, if_neg (not_not_intro hns)]
    by_cases hg : ns = "global"
    · subst hg
      obtain ⟨hp, hgn⟩ := hattr rfl
      rw [if_neg (fun hc : ¬("global" = "global") => hc rfl), if_neg hp,
        if_neg (not_not_intro hgn)]
      exact ih (fun q hq => h q (List.mem_cons_of_mem _ hq))
    · rw [if_pos hg]
      exact ih (fun q hq => h q (List.mem_cons_of_mem _ hq))

theorem evalGExpr_some (tm g : List (String × Value)) (K : List String)
    (e : GExpr) (h : GExpr.RefsOK K (tm.map Prod.fst) e)
    (hg : ∀ n, ("global", n) ∈ e.vars → n ∈ g.map Prod.fst) :
    ∃ v, evalGExpr tm g e = some v := by
  induction e with
  | lit v => exact ⟨v, rfl⟩
  | globalRef n =>
    exact lookupStr_some_of_mem_keys n g (hg n (by simp [GExpr.vars]))
  | terramateRef n => exact lookupStr_some_of_mem_keys n tm h
  | nsRef ns a => cases h
  | pair a b iha ihb =>
    obtain ⟨va, ha⟩ := iha h.1
      (fun n hn => hg n (by simp only [GExpr.vars, List.mem_append]; exact Or.inl hn))
    obtain ⟨vb, hb⟩ := ihb h.2
      (fun n hn => hg n (by simp only [GExpr.vars, List.mem_append]; exact Or.inr hn))
    exact ⟨.list [va, vb], by simp [evalGExpr, ha, hb]⟩

theorem eraseKey_sublist {α : Type} (k : String) (l : List (String × α)) :
    (eraseKey k l).Sublist l := by
  induction l with
  | nil => exact List.Sublist.refl _
  | cons p rest ih =>
    obtain ⟨k2, v⟩ := p
    simp only [eraseKey]
    by_cases he : k2 = k
    · rw [if_pos he]
      exact ih.cons _
    · rw [if_neg he]
      exact ih.cons₂ _

theorem mem_keys_eraseKey {α : Type} (k n : String) (l : List (String × α))
    (hne : n ≠ k) : n ∈ (eraseKey k l).map Prod.fst ↔ n ∈ l.map Prod.fst := by
  induction l with
  | nil => simp [eraseKey]
  | cons p rest ih =>
    obtain ⟨k2, v⟩ := p
    simp only [eraseKey]
    by_cases he : k2 = k
    · subst he
      rw [if_pos rfl]
      simp only [List.map_cons, List.mem_cons]
      rw [ih]
      constructor
      · exact Or.inr
      · rintro (he2 | hm)
        · exact absurd he2 hne
        · exact hm
    · rw [if_neg he]
      simp only [List.map_cons, List.mem_cons]
      rw [ih]

theorem eraseKey_not_mem {α : Type} (k : String) (l : List (String × α))
    (hk : k ∉ l.map Prod.fst) : eraseKey k l = l := by
  induction l with
  | nil => rfl
  | cons p rest ih =>
    obtain ⟨k2, v⟩ := p
    simp only [List.map_cons, List.mem_cons, not_or] at hk
    simp only [eraseKey]
    rw [if_neg (fun he => hk.1 he.symm), ih hk.2]

theorem eraseKey_length {α : Type} (k : String) (l : List (String × α))
    (hnd : (l.map Prod.fst).Nodup) (hk : k ∈ l.map Prod.fst) :
    (eraseKey k l).length + 1 = l.length := by
  induction l with
  | nil => simp at hk
  | cons p rest ih =>
    obtain ⟨k2, v⟩ := p
    simp only [List.map_cons, List.nodup_cons] at hnd
    simp only [eraseKey]
    by_cases he : k2 = k
    · subst he
      rw [if_pos rfl, eraseKey_not_mem k2 rest hnd.1]
      simp
    · rw [if_neg he]
      simp only [List.map_cons, List.mem_cons] at hk
      rcases hk with hk | hk
      · exact absurd hk.symm he
      · have := ih hnd.2 hk
        simp only [List.length_cons]
        omega

theorem sublist_eraseKey_of {α : Type} (k : String)
    (todo l : List (String × α)) (hsub : todo.Sublist l)
    (hk : k ∉ todo.map Prod.fst) : todo.Sublist (eraseKey k l) := by
  induction hsub with
  | slnil => exact List.Sublist.refl _
  | cons a hs ih =>
    obtain ⟨k2, v⟩ := a
    simp only [eraseKey]
    by_cases he : k2 = k
    · rw [if_pos he]
      exact ih hk
    · rw [if_neg he]
      exact (ih hk).cons _
  | cons₂ a hs ih =>
    obtain ⟨k2, v⟩ := a
    simp only [List.map_cons, List.mem_cons, not_or] at hk
    simp only [eraseKey]
    rw [if_neg (fun he => hk.1 he.symm)]
    exact (ih hk.2).cons₂ _

theorem eraseKey_keys_not_mem {α : Type} (k : String) (l : List (String × α)) :
    k ∉ (eraseKey k l).map Prod.fst := by
  induction l with
  | nil => simp [eraseKey]
  | cons p rest ih =>
    obtain ⟨k2, v⟩ := p
    simp only [eraseKey]
    by_cases he : k2 = k
    · rw [if_pos he]; exact ih
    · rw [if_neg he]
      simp only [List.map_cons, List.mem_cons, not_or]
      exact ⟨fun hc => he hc.symm, ih⟩

theorem checkVars_skip_mem (ctxNs pendN gN : List String)
    (vl : List (String × String))
    (h : checkVars ctxNs pendN gN vl = .skip) :
    ∃ attr, ("global", attr) ∈ vl ∧ attr ∈ pendN := by
  induction vl with
  | nil => simp [checkVars] at h
  | cons p rest ih =>
    obtain ⟨ns, attr⟩ := p
    simp only [checkVars] at h
    by_cases h1 : ns ∉ ctxNs
    · rw [if_pos h1] at h; cases h
    · rw [if_neg h1] at h
      by_cases h2 : ns ≠ "global"
      · rw [if_pos h2] at h
        obtain ⟨a, ha, hp⟩ := ih h
        exact ⟨a, List.mem_cons_of_mem _ ha, hp⟩
      · rw [if_neg h2] at h
        push_neg at h2
        subst h2
        by_cases h3 : attr ∈ pendN
        · exact ⟨attr, List.mem_cons_self _ _, h3⟩
        · rw [if_neg h3] at h
          by_cases h4 : attr ∉ gN
          · rw [if_pos h4] at h; cases h
          · rw [if_neg h4] at h
            obtain ⟨a, ha, hp⟩ := ih h
            exact ⟨a, List.mem_cons_of_mem _ ha, hp⟩

/-- Invariant carried by the fixed-point loop: pending names are unique and
disjoint from the evaluated ones, together they are exactly the collected
names `K`, and every pending expression references only `global.*` names
in `K` and `terramate.*` names of the metadata. -/
structure PassInv (tm : List (String × Value)) (K : List String)
    (pend : List (String × GExpr)) (g : List (String × Value)) : Prop where
  nodup : (pend.map Prod.fst).Nodup
  disj : ∀ k ∈ pend.map Prod.fst, k ∉ g.map Prod.fst
  keysIff : ∀ k, k ∈ K ↔ (k ∈ pend.map Prod.fst ∨ k ∈ g.map Prod.fst)
  refs : ∀ p ∈ pend, GExpr.RefsOK K (tm.map Prod.fst) p.2

theorem globalsPass_spec (tm : List (String × Value)) (K : List String) :
    ∀ (todo pend : List (String × GExpr)) (g : List (String × Value))
      (cnt : Nat),
    todo.Sublist pend →
    PassInv tm K pend g →
    ∃ pend2 g2 cnt2,
      globalsPass tm todo pend g cnt = .ok (pend2, g2, cnt2) ∧
      PassInv tm K pend2 g2 ∧
      pend2.Sublist pend ∧
      SubMap g g2 ∧
      pend2.length + cnt2 = pend.length + cnt ∧
      cnt ≤ cnt2 ∧
      (∀ n v, lookupStr n g2 = some v →
        lookupStr n g = some v ∨
          ∃ e, (n, e) ∈ pend ∧ evalGExpr tm g2 e = some v) ∧
      (∀ w ∈ todo,
        (∀ q ∈ GExpr.vars w.2, q.1 = "global" → q.2 ∉ pend.map Prod.fst) →
        cnt < cnt2) := by
  intro todo
  induction todo with
  | nil =>
    intro pend g cnt _ hinv
    refine ⟨pend, g, cnt, rfl, hinv, List.Sublist.refl _, SubMap.refl g, rfl,
      Nat.le_refl _, fun n v h => Or.inl h, fun w hw => absurd hw (by simp)⟩
  | cons he0 todo ih =>
    obtain ⟨name, ex⟩ := he0
    intro pend g cnt hsub hinv
    have hmemPend : (name, ex) ∈ pend := hsub.subset (List.mem_cons_self _ _)
    have htodoSub : todo.Sublist pend := List.sublist_of_cons_sublist hsub
    have hrefs : GExpr.RefsOK K (tm.map Prod.fst) ex :=
      hinv.refs (name, ex) hmemPend
    have hvars := GExpr.refsOK_vars K (tm.map Prod.fst) ex hrefs
    have hcheck := checkVars_not_fatal ["terramate", "global"]
      (pend.map Prod.fst) (g.map Prod.fst) ex.vars
      (by
        intro p hp
        rcases hvars p hp with ⟨h1, h2⟩ | ⟨h1, h2⟩
        · exact ⟨by simp [h1], fun _ => (hinv.keysIff p.2).mp h2⟩
        · exact ⟨by simp [h1], fun hg => absurd (h1 ▸ hg) (by decide)⟩)
    -- name is not among the remaining todo keys
    have hnameNotTodo : name ∉ todo.map Prod.fst := by
      have hndAll : ((name, ex) :: todo).map Prod.fst
          |>.Nodup := (hsub.map Prod.fst).nodup hinv.nodup
      simp only [List.map_cons, List.nodup_cons] at hndAll
      exact hndAll.1
    rcases hcheck with hchk | hchk
    · -- the expression is skipped in this pass
      obtain ⟨pend2, g2, cnt2, heq, hinv2, hsub2, hmap2, hlen2, hcnt2, htrack2,
        hprog2⟩ := ih pend g cnt htodoSub hinv
      refine ⟨pend2, g2, cnt2, ?_, hinv2, hsub2, hmap2, hlen2, hcnt2, htrack2, ?_⟩
      · simp only [globalsPass, hchk]
        exact heq
      · intro w hw hwdeps
        rcases List.mem_cons.mp hw with hw | hw
        · exfalso
          obtain ⟨attr, hattr, hpend⟩ := checkVars_skip_mem _ _ _ _ hchk
          subst hw
          exact hwdeps ("global", attr) hattr rfl hpend
        · exact hprog2 w hw hwdeps
    · -- the expression proceeds to evaluation
      cases heval : evalGExpr tm g ex with
      | none =>
        obtain ⟨pend2, g2, cnt2, heq, hinv2, hsub2, hmap2, hlen2, hcnt2,
          htrack2, hprog2⟩ := ih pend g cnt htodoSub hinv
        refine ⟨pend2, g2, cnt2, ?_, hinv2, hsub2, hmap2, hlen2, hcnt2,
          htrack2, ?_⟩
        · simp only [globalsPass, hchk, heval]
          exact heq
        · intro w hw hwdeps
          rcases List.mem_cons.mp hw with hw | hw
          · exfalso
            subst hw
            obtain ⟨v, hv⟩ := evalGExpr_some tm g K ex hrefs
              (by
                intro n hn
                have hK : n ∈ K := by
                  rcases hvars ("global", n) hn with ⟨_, h2⟩ | ⟨h1, _⟩
                  · exact h2
                  · exact absurd h1 (show ¬("global" = "terramate") from by decide)
                rcases (hinv.keysIff n).mp hK with hp | hg2
                · exact absurd hp (hwdeps ("global", n) hn rfl)
                · exact hg2)
            rw [heval] at hv
            cases hv
          · exact hprog2 w hw hwdeps
      | some v =>
        have hnameKeys : name ∈ pend.map Prod.fst :=
          List.mem_map.mpr ⟨(name, ex), hmemPend, rfl⟩
        have hnameNotG : name ∉ g.map Prod.fst := hinv.disj name hnameKeys
        have hsubE : todo.Sublist (eraseKey name pend) :=
          sublist_eraseKey_of name todo pend htodoSub hnameNotTodo
        have hpendE : (eraseKey name pend).Sublist pend := eraseKey_sublist _ _
        have hmapG : SubMap g ((name, v) :: g) := by
          intro k u hk
          have hkmem : k ∈ g.map Prod.fst :=
            List.mem_map.mpr ⟨(k, u), lookupStr_mem k u g hk, rfl⟩
          have hkne : name ≠ k := fun he => hnameNotG (he ▸ hkmem)
          simp only [lookupStr, if_neg hkne]
          exact hk
        have hinvE : PassInv tm K (eraseKey name pend) ((name, v) :: g) := by
          refine ⟨(hpendE.map Prod.fst).nodup hinv.nodup, ?_, ?_, ?_⟩
          · intro k hk
            have hkp : k ∈ pend.map Prod.fst :=
              (hpendE.map Prod.fst).subset hk
            have hkne : k ≠ name := fun he => eraseKey_keys_not_mem name pend (he ▸ hk)
            simp only [List.map_cons, List.mem_cons, not_or]
            exact ⟨hkne, hinv.disj k hkp⟩
          · intro k
            constructor
            · intro hK
              rcases (hinv.keysIff k).mp hK with hp | hg2
              · by_cases he : k = name
                · subst he
                  exact Or.inr (by simp)
                · exact Or.inl ((mem_keys_eraseKey name k pend he).mpr hp)
              · exact Or.inr (by simp [hg2])
            · intro h
              rcases h with hp | hg2
              · exact (hinv.keysIff k).mpr
                  (Or.inl ((hpendE.map Prod.fst).subset hp))
              · simp only [List.map_cons, List.mem_cons] at hg2
                rcases hg2 with he | hg2
                · subst he
                  exact (hinv.keysIff k).mpr (Or.inl hnameKeys)
                · exact (hinv.keysIff k).mpr (Or.inr hg2)
          · intro p hp
            exact hinv.refs p (hpendE.subset hp)
        obtain ⟨pend2, g2, cnt2, heq, hinv2, hsub2, hmap2, hlen2, hcnt2,
          htrack2, _⟩ := ih (eraseKey name pend) ((name, v) :: g) (cnt + 1)
            hsubE hinvE
        have hmapG2 : SubMap g g2 := hmapG.trans hmap2
        have hlenE : (eraseKey name pend).length + 1 = pend.length :=
          eraseKey_length name pend hinv.nodup hnameKeys
        refine ⟨pend2, g2, cnt2, ?_, hinv2, hsub2.trans hpendE, hmapG2, ?_,
          ?_, ?_, ?_⟩
        · simp only [globalsPass, hchk, heval]
          exact heq
        · omega
        · omega
        · intro n u hu
          rcases htrack2 n u hu with hleft | ⟨e, hmem, he⟩
          · simp only [lookupStr] at hleft
            by_cases hne : name = n
            · subst hne
              rw [if_pos rfl] at hleft
              cases hleft
              exact Or.inr ⟨ex, hmemPend,
                evalGExpr_mono tm g g2 ex hmapG2 _ heval⟩
            · rw [if_neg hne] at hleft
              exact Or.inl hleft
          · exact Or.inr ⟨e, hpendE.subset hmem, he⟩
        · intro w _ _
          omega

theorem list_exists_min_image {α : Type} (f : α → Nat) (l : List α)
    (h : l ≠ []) : ∃ a ∈ l, ∀ b ∈ l, f a ≤ f b := by
  induction l with
  | nil => cases h rfl
  | cons x rest ih =>
    cases rest with
    | nil => exact ⟨x, List.mem_cons_self _ _, by simp⟩
    | cons y rest2 =>
      obtain ⟨a, ha, hmin⟩ := ih (by simp)
      by_cases hc : f x ≤ f a
      · refine ⟨x, List.mem_cons_self _ _, ?_⟩
        intro b hb
        rcases List.mem_cons.mp hb with hb | hb
        · subst hb; exact Nat.le_refl _
        · exact Nat.le_trans hc (hmin b hb)
      · refine ⟨a, List.mem_cons_of_mem _ ha, ?_⟩
        intro b hb
        rcases List.mem_cons.mp hb with hb | hb
        · subst hb; omega
        · exact hmin b hb

theorem mem_keys_unique {α : Type} (n : String) (e e2 : α)
    (l : List (String × α)) (h1 : (n, e) ∈ l) (h2 : (n, e2) ∈ l)
    (hnd : (l.map Prod.fst).Nodup) : e = e2 := by
  induction l with
  | nil => cases h1
  | cons p rest ih =>
    simp only [List.map_cons, List.nodup_cons] at hnd
    rcases List.mem_cons.mp h1 with he1 | hm1 <;>
      rcases List.mem_cons.mp h2 with he2 | hm2
    · rw [← he1] at he2; exact (Prod.mk.injEq _ _ _ _ ▸ he2).2.symm
    · exfalso
      exact hnd.1 (he1 ▸ List.mem_map.mpr ⟨(n, e2), hm2, rfl⟩)
    · exfalso
      exact hnd.1 (he2 ▸ List.mem_map.mpr ⟨(n, e), hm1, rfl⟩)
    · exact ih hm1 hm2 hnd.2

theorem globalsEvalLoop_spec (tm : List (String × Value)) (K : List String)
    (rank : String → Nat) :
    ∀ (fuel : Nat) (pend : List (String × GExpr)) (g : List (String × Value)),
    pend.length < fuel →
    PassInv tm K pend g →
    (∀ p ∈ pend, ∀ q ∈ GExpr.vars p.2, q.1 = "global" →
      q.2 ∈ pend.map Prod.fst → rank q.2 < rank p.1) →
    ∃ g2, globalsEvalLoop tm fuel pend g = .ok g2 ∧
      SubMap g g2 ∧
      (∀ k, k ∈ K ↔ k ∈ g2.map Prod.fst) ∧
      (∀ n v, lookupStr n g2 = some v →
        lookupStr n g = some v ∨
          ∃ e, (n, e) ∈ pend ∧ evalGExpr tm g2 e = some v) := by
  intro fuel
  induction fuel with
  | zero => intro pend g h; omega
  | succ f ih =>
    intro pend g hlen hinv hrank
    cases hp : pend with
    | nil =>
      refine ⟨g, by simp [globalsEvalLoop], SubMap.refl g, ?_,
        fun n v h => Or.inl h⟩
      intro k
      rw [hinv.keysIff k]
      subst hp
      simp
    | cons p0 rest =>
      subst hp
      -- one pass over the pending expressions makes progress
      obtain ⟨pend2, g2, cnt2, heq, hinv2, hsub2, hmap2, hlen2, _, htrack2,
        hprog2⟩ := globalsPass_spec tm K (p0 :: rest) (p0 :: rest) g 0
          (List.Sublist.refl _) hinv
      obtain ⟨w, hw, hwmin⟩ := list_exists_min_image (fun p => rank p.1)
        (p0 :: rest) (by simp)
      have hcnt : 0 < cnt2 := by
        refine hprog2 w hw ?_
        intro q hq hqg hqpend
        obtain ⟨ve, hve⟩ := List.mem_map.mp hqpend
        have h1 : rank q.2 < rank w.1 := hrank w hw q hq hqg hqpend
        have h2 : rank w.1 ≤ rank q.2 := by
          have := hwmin ve hve.1
          rw [hve.2] at this
          exact this
        omega
      have hlen3 : pend2.length < f := by
        simp only [List.length_cons] at hlen hlen2
        omega
      obtain ⟨g3, heq3, hmap3, hkeys3, htrack3⟩ := ih pend2 g2 hlen3 hinv2
        (by
          intro p hpmem q hq hqg hqpend
          exact hrank p (hsub2.subset hpmem) q hq hqg
            ((hsub2.map Prod.fst).subset hqpend))
      refine ⟨g3, ?_, hmap2.trans hmap3, hkeys3, ?_⟩
      · simp only [globalsEvalLoop, List.isEmpty_cons, Bool.false_eq_true,
          if_false, heq, if_neg (by omega : ¬cnt2 = 0)]
        exact heq3
      · intro n v hv
        rcases htrack3 n v hv with hleft | ⟨e, hmem, he⟩
        · rcases htrack2 n v hleft with hleft2 | ⟨e, hmem, he⟩
          · exact Or.inl hleft2
          · exact Or.inr ⟨e, hmem, evalGExpr_mono tm g2 g3 e hmap3 v he⟩
        · exact Or.inr ⟨e, hsub2.subset hmem, he⟩

theorem globalsPass_cnt_le (tm : List (String × Value)) :
    ∀ (todo pend : List (String × GExpr)) (g : List (String × Value))
      (cnt : Nat) pend2 g2 cnt2,
    globalsPass tm todo pend g cnt = .ok (pend2, g2, cnt2) → cnt ≤ cnt2 := by
  intro todo
  induction todo with
  | nil =>
    intro pend g cnt pend2 g2 cnt2 h
    simp only [globalsPass] at h
    cases h
    exact Nat.le_refl _
  | cons p todo ih =>
    obtain ⟨name, ex⟩ := p
    intro pend g cnt pend2 g2 cnt2 h
    simp only [globalsPass] at h
    cases hc : checkVars ["terramate", "global"] (pend.map Prod.fst)
        (g.map Prod.fst) ex.vars with
    | fatal e => rw [hc] at h; exact Except.noConfusion h
    | skip => rw [hc] at h; exact ih _ _ _ _ _ _ h
    | proceed =>
      rw [hc] at h
      cases he : evalGExpr tm g ex with
      | none => rw [he] at h; exact ih _ _ _ _ _ _ h
      | some v =>
        rw [he] at h
        exact Nat.le_trans (Nat.le_succ cnt) (ih _ _ _ _ _ _ h)

theorem globalsPass_no_progress (tm : List (String × Value)) :
    ∀ (todo pend : List (String × GExpr)) (g : List (String × Value))
      (cnt : Nat) pend2 g2,
    globalsPass tm todo pend g cnt = .ok (pend2, g2, cnt) →
    pend2 = pend ∧ g2 = g := by
  intro todo
  induction todo with
  | nil =>
    intro pend g cnt pend2 g2 h
    simp only [globalsPass] at h
    cases h
    exact ⟨rfl, rfl⟩
  | cons p todo ih =>
    obtain ⟨name, ex⟩ := p
    intro pend g cnt pend2 g2 h
    simp only [globalsPass] at h
    cases hc : checkVars ["terramate", "global"] (pend.map Prod.fst)
        (g.map Prod.fst) ex.vars with
    | fatal e => rw [hc] at h; exact Except.noConfusion h
    | skip => rw [hc] at h; exact ih _ _ _ _ _ h
    | proceed =>
      rw [hc] at h
      cases he : evalGExpr tm g ex with
      | none => rw [he] at h; exact ih _ _ _ _ _ h
      | some v =>
        rw [he] at h
        exfalso
        have := globalsPass_cnt_le tm todo (eraseKey name pend)
          ((name, v) :: g) (cnt + 1) pend2 g2 cnt h
        omega

theorem globalsPass_ok_track (tm : List (String × Value)) :
    ∀ (todo pend : List (String × GExpr)) (g : List (String × Value))
      (cnt : Nat) pend2 g2 cnt2,
    globalsPass tm todo pend g cnt = .ok (pend2, g2, cnt2) →
    todo.Sublist pend →
    (pend.map Prod.fst).Nodup →
    (∀ k ∈ pend.map Prod.fst, k ∉ g.map Prod.fst) →
    (pend2.map Prod.fst).Nodup ∧
    (∀ k ∈ pend2.map Prod.fst, k ∉ g2.map Prod.fst) ∧
    pend2.Sublist pend ∧
    SubMap g g2 ∧
    (∀ k, (k ∈ pend.map Prod.fst ∨ k ∈ g.map Prod.fst) ↔
      (k ∈ pend2.map Prod.fst ∨ k ∈ g2.map Prod.fst)) ∧
    (∀ n v, lookupStr n g2 = some v →
      lookupStr n g = some v ∨
        ∃ e, (n, e) ∈ pend ∧ evalGExpr tm g2 e = some v) := by
  intro todo
  induction todo with
  | nil =>
    intro pend g cnt pend2 g2 cnt2 h _ hnd hdisj
    simp only [globalsPass] at h
    cases h
    exact ⟨hnd, hdisj, List.Sublist.refl _, SubMap.refl g, fun k => Iff.rfl,
      fun n v hv => Or.inl hv⟩
  | cons p todo ih =>
    obtain ⟨name, ex⟩ := p
    intro pend g cnt pend2 g2 cnt2 h hsub hnd hdisj
    have hmemPend : (name, ex) ∈ pend := hsub.subset (List.mem_cons_self _ _)
    have htodoSub : todo.Sublist pend := List.sublist_of_cons_sublist hsub
    have hnameNotTodo : name ∉ todo.map Prod.fst := by
      have hndAll : ((name, ex) :: todo).map Prod.fst
          |>.Nodup := (hsub.map Prod.fst).nodup hnd
      simp only [List.map_cons, List.nodup_cons] at hndAll
      exact hndAll.1
    simp only [globalsPass] at h
    cases hc : checkVars ["terramate", "global"] (pend.map Prod.fst)
        (g.map Prod.fst) ex.vars with
    | fatal e => rw [hc] at h; exact Except.noConfusion h
    | skip =>
      rw [hc] at h
      exact ih _ _ _ _ _ _ h htodoSub hnd hdisj
    | proceed =>
      rw [hc] at h
      cases he : evalGExpr tm g ex with
      | none =>
        rw [he] at h
        exact ih _ _ _ _ _ _ h htodoSub hnd hdisj
      | some v =>
        rw [he] at h
        have hnameKeys : name ∈ pend.map Prod.fst :=
          List.mem_map.mpr ⟨(name, ex), hmemPend, rfl⟩
        have hnameNotG : name ∉ g.map Prod.fst := hdisj name hnameKeys
        have hsubE : todo.Sublist (eraseKey name pend) :=
          sublist_eraseKey_of name todo pend htodoSub hnameNotTodo
        have hpendE : (eraseKey name pend).Sublist pend := eraseKey_sublist _ _
        have hndE : ((eraseKey name pend).map Prod.fst).Nodup :=
          (hpendE.map Prod.fst).nodup hnd
        have hdisjE : ∀ k ∈ (eraseKey name pend).map Prod.fst,
            k ∉ ((name, v) :: g).map Prod.fst := by
          intro k hk
          have hkp : k ∈ pend.map Prod.fst := (hpendE.map Prod.fst).subset hk
          have hkne : k ≠ name := fun hq =>
            eraseKey_keys_not_mem name pend (hq ▸ hk)
          simp only [List.map_cons, List.mem_cons, not_or]
          exact ⟨hkne, hdisj k hkp⟩
        have hmapG : SubMap g ((name, v) :: g) := by
          intro k u hk
          have hkmem : k ∈ g.map Prod.fst :=
            List.mem_map.mpr ⟨(k, u), lookupStr_mem k u g hk, rfl⟩
          have hkne : name ≠ k := fun hq => hnameNotG (hq ▸ hkmem)
          simp only [lookupStr, if_neg hkne]
          exact hk
        obtain ⟨hnd2, hdisj2, hsub2, hmap2, hkeys2, htrack2⟩ :=
          ih _ _ _ _ _ _ h hsubE hndE hdisjE
        have hmapG2 : SubMap g g2 := hmapG.trans hmap2
        refine ⟨hnd2, hdisj2, hsub2.trans hpendE, hmapG2, ?_, ?_⟩
        · intro k
          rw [← hkeys2 k]
          constructor
          · rintro (hp | hg2)
            · by_cases hq : k = name
              · subst hq
                exact Or.inr (by simp)
              · exact Or.inl ((mem_keys_eraseKey name k pend hq).mpr hp)
            · exact Or.inr (by simp [hg2])
          · rintro (hp | hg2)
            · exact Or.inl ((hpendE.map Prod.fst).subset hp)
            · simp only [List.map_cons, List.mem_cons] at hg2
              rcases hg2 with hq | hg2
              · exact Or.inl (hq ▸ hnameKeys)
              · exact Or.inr hg2
        · intro n u hu
          rcases htrack2 n u hu with hleft | ⟨e, hmem, heq⟩
          · simp only [lookupStr] at hleft
            by_cases hq : name = n
            · subst hq
              rw [if_pos rfl] at hleft
              cases hleft
              exact Or.inr ⟨ex, hmemPend,
                evalGExpr_mono tm g g2 ex hmapG2 _ he⟩
            · rw [if_neg hq] at hleft
              exact Or.inl hleft
          · exact Or.inr ⟨e, hpendE.subset hmem, heq⟩

theorem globalsEvalLoop_ok_resolved (tm : List (String × Value)) :
    ∀ (fuel : Nat) (pend : List (String × GExpr)) (g g2 : List (String × Value)),
    globalsEvalLoop tm fuel pend g = .ok g2 →
    (pend.map Prod.fst).Nodup →
    (∀ k ∈ pend.map Prod.fst, k ∉ g.map Prod.fst) →
    SubMap g g2 ∧
    (∀ k, (k ∈ pend.map Prod.fst ∨ k ∈ g.map Prod.fst) ↔
      k ∈ g2.map Prod.fst) ∧
    (∀ n v, lookupStr n g2 = some v →
      lookupStr n g = some v ∨
        ∃ e, (n, e) ∈ pend ∧ evalGExpr tm g2 e = some v) := by
  intro fuel
  induction fuel with
  | zero =>
    intro pend g g2 h
    exact Except.noConfusion h
  | succ f ih =>
    intro pend g g2 h hnd hdisj
    simp only [globalsEvalLoop] at h
    by_cases hp : pend.isEmpty
    · rw [if_pos hp] at h
      cases h
      have hpe : pend = [] := List.isEmpty_iff.mp hp
      subst hpe
      exact ⟨SubMap.refl g, fun k => by simp, fun n v hv => Or.inl hv⟩
    · rw [if_neg hp] at h
      cases hpass : globalsPass tm pend pend g 0 with
      | error e => rw [hpass] at h; exact Except.noConfusion h
      | ok res =>
        obtain ⟨pendm, gm, cnt⟩ := res
        rw [hpass] at h
        dsimp only at h
        by_cases hcnt : cnt = 0
        · rw [if_pos hcnt] at h; exact Except.noConfusion h
        · rw [if_neg hcnt] at h
          obtain ⟨hndm, hdisjm, hsubm, hmapm, hkeysm, htrackm⟩ :=
            globalsPass_ok_track tm pend pend g 0 pendm gm cnt hpass
              (List.Sublist.refl _) hnd hdisj
          obtain ⟨hmap2, hkeys2, htrack2⟩ := ih pendm gm g2 h hndm hdisjm
          refine ⟨hmapm.trans hmap2, ?_, ?_⟩
          · intro k
            rw [hkeysm k, hkeys2 k]
          · intro n v hv
            rcases htrack2 n v hv with hleft | ⟨e, hmem, heq⟩
            · rcases htrackm n v hleft with hleft2 | ⟨e, hmem, heq⟩
              · exact Or.inl hleft2
              · exact Or.inr ⟨e, hmem, evalGExpr_mono tm gm g2 e hmap2 v heq⟩
            · exact Or.inr ⟨e, hsubm.subset hmem, heq⟩

/-- Characterization of a successful fixed-point resolution: every
collected global resolves to the evaluation of its own expression under
the final resolved environment. -/
theorem globalsExprEval_resolved (tm : List (String × Value))
    (exprs : List (String × GExpr)) (g : List (String × Value))
    (h : globalsExprEval tm exprs = .ok g)
    (hnd : (exprs.map Prod.fst).Nodup) :
    ∀ n e, (n, e) ∈ exprs →
      ∃ v, lookupStr n g = some v ∧ evalGExpr tm g e = some v := by
  obtain ⟨_, hkeys, htrack⟩ := globalsEvalLoop_ok_resolved tm
    (exprs.length + 1) exprs [] g h hnd (by simp)
  intro n e hmem
  have hkey : n ∈ g.map Prod.fst :=
    (hkeys n).mp (Or.inl (List.mem_map.mpr ⟨(n, e), hmem, rfl⟩))
  obtain ⟨v, hv⟩ := lookupStr_some_of_mem_keys n g hkey
  rcases htrack n v hv with hleft | ⟨e2, hmem2, heq2⟩
  · simp [lookupStr] at hleft
  · have : e2 = e := mem_keys_unique n e2 e exprs hmem2 hmem hnd
    subst this
    exact ⟨v, hv, heq2⟩

theorem globalsEvalLoop_mono (tm : List (String × Value)) :
    ∀ (fuel : Nat) (pend : List (String × GExpr)) (g r : List (String × Value)),
    globalsEvalLoop tm fuel pend g = .ok r →
    ∀ f2, fuel ≤ f2 → globalsEvalLoop tm f2 pend g = .ok r := by
  intro fuel
  induction fuel with
  | zero => intro pend g r h; exact Except.noConfusion h
  | succ f ih =>
    intro pend g r h f2 hle
    obtain ⟨f3, rfl⟩ : ∃ f3, f2 = f3 + 1 := ⟨f2 - 1, by omega⟩
    simp only [globalsEvalLoop] at h ⊢
    by_cases hp : pend.isEmpty
    · rw [if_pos hp] at h ⊢; exact h
    · rw [if_neg hp] at h ⊢
      cases hpass : globalsPass tm pend pend g 0 with
      | error e => rw [hpass] at h; exact Except.noConfusion h
      | ok res =>
        obtain ⟨pendm, gm, cnt⟩ := res
        rw [hpass] at h
        dsimp only at h ⊢
        by_cases hcnt : cnt = 0
        · rw [if_pos hcnt] at h; exact Except.noConfusion h
        · rw [if_neg hcnt] at h ⊢
          exact ih pendm gm r h f3 (by omega)

/-- C3: for collected globals whose inter-`global` reference graph is
acyclic (witnessed by a rank function decreasing along references, which
exists exactly for finite acyclic graphs) and which reference only
already-collected globals and known root namespaces, the fixed-point loop
terminates with every global resolved, within fuel `|globals|² + 1` (i.e.
at most `|globals|²` passes — the proof actually bounds passes by
`|globals|`); and whenever a pass completes without evaluating any
expression while `N` expressions are pending, evaluation fails with the
`GlobalEval` error reporting "unable to evaluate N globals". -/
theorem globalsEval_acyclic_resolves_and_cycle_errors :
    (∀ (tm : List (String × Value)) (exprs : List (String × GExpr))
       (rank : String → Nat),
      (exprs.map Prod.fst).Nodup →
      (∀ p ∈ exprs, GExpr.RefsOK (exprs.map Prod.fst) (tm.map Prod.fst) p.2) →
      (∀ p ∈ exprs, ∀ q ∈ GExpr.vars p.2, q.1 = "global" →
        q.2 ∈ exprs.map Prod.fst → rank q.2 < rank p.1) →
      ∃ g, globalsExprEval tm exprs = .ok g ∧
        globalsEvalLoop tm (exprs.length * exprs.length + 1) exprs [] = .ok g ∧
        (∀ n, n ∈ exprs.map Prod.fst → ∃ v, lookupStr n g = some v) ∧
        (∀ n e, (n, e) ∈ exprs →
          ∃ v, lookupStr n g = some v ∧ evalGExpr tm g e = some v)) ∧
    (∀ (tm : List (String × Value)) (fuel : Nat)
       (pend pend2 : List (String × GExpr)) (g g2 : List (String × Value)),
      pend ≠ [] →
      globalsPass tm pend pend g 0 = .ok (pend2, g2, 0) →
      globalsEvalLoop tm (fuel + 1) pend g =
        .error (.unableToEvaluate pend.length)) := by
  constructor
  · intro tm exprs rank hnd hrefs hrank
    have hinv : PassInv tm (exprs.map Prod.fst) exprs [] :=
      ⟨hnd, fun k _ => by simp, fun k => by simp, hrefs⟩
    obtain ⟨g, heq, _, _, _⟩ := globalsEvalLoop_spec tm (exprs.map Prod.fst)
      rank (exprs.length + 1) exprs [] (Nat.lt_succ_self _) hinv
      (fun p hp q hq hqg hqk => hrank p hp q hq hqg hqk)
    have heval : globalsExprEval tm exprs = .ok g := heq
    have hres := globalsExprEval_resolved tm exprs g heval hnd
    refine ⟨g, heval, ?_, ?_, hres⟩
    · refine globalsEvalLoop_mono tm (exprs.length + 1) exprs [] g heq _ ?_
      have : exprs.length ≤ exprs.length * exprs.length := by
        cases hn : exprs.length with
        | zero => exact Nat.le_refl _
        | succ m => exact Nat.le_mul_of_pos_left _ (by omega)
      omega
    · intro n hn
      obtain ⟨p, hp, hfst⟩ := List.mem_map.mp hn
      obtain ⟨v, hv, _⟩ := hres p.1 p.2 (by rw [show (p.1, p.2) = p from rfl]; exact hp)
      exact ⟨v, hfst ▸ hv⟩
  · intro tm fuel pend pend2 g g2 hne hpass
    obtain ⟨hp2, _⟩ := globalsPass_no_progress tm pend pend g 0 pend2 g2 hpass
    have his : pend.isEmpty = false := by
      cases pend with
      | nil => exact absurd rfl hne
      | cons a l => rfl
    simp only [globalsEvalLoop, his, Bool.false_eq_true, if_false, hpass]
    rw [if_pos trivial, hp2]

/-- Witness for C3 at concrete inputs: `global.b = 2, global.a = (global.b,
1)` resolves fully, and the one-element cycle `global.c = global.c` makes a
pass with no progress and reports "unable to evaluate 1 globals". -/
theorem globalsEval_acyclic_witness :
    (∃ g, globalsExprEval [("name", Value.str "s")]
        [("b", GExpr.lit (Value.num 2)),
         ("a", GExpr.pair (GExpr.globalRef "b") (GExpr.lit (Value.num 1)))] =
        .ok g ∧
      globalsEvalLoop [("name", Value.str "s")] 5
        [("b", GExpr.lit (Value.num 2)),
         ("a", GExpr.pair (GExpr.globalRef "b") (GExpr.lit (Value.num 1)))] [] =
        .ok g ∧
      (∀ n, n ∈ ["b", "a"] → ∃ v, lookupStr n g = some v) ∧
      (∀ n e, (n, e) ∈ [("b", GExpr.lit (Value.num 2)),
         ("a", GExpr.pair (GExpr.globalRef "b") (GExpr.lit (Value.num 1)))] →
        ∃ v, lookupStr n g = some v ∧
          evalGExpr [("name", Value.str "s")] g e = some v)) ∧
    globalsEvalLoop [] 1 [("c", GExpr.globalRef "c")] [] =
      .error (.unableToEvaluate 1) := by
  constructor
  · exact globalsEval_acyclic_resolves_and_cycle_errors.1
      [("name", Value.str "s")]
      [("b", GExpr.lit (Value.num 2)),
       ("a", GExpr.pair (GExpr.globalRef "b") (GExpr.lit (Value.num 1)))]
      (fun n => if n = "a" then 1 else 0)
      (by decide)
      (by
        intro p hp
        fin_cases hp
        · exact trivial
        · exact ⟨show "b" ∈ ["b", "a"] from by simp, trivial⟩)
      (by
        intro p hp
        fin_cases hp
        · intro q hq hqg hqk
          simp [GExpr.vars] at hq
        · intro q hq hqg hqk
          simp only [GExpr.vars, List.append_nil, List.mem_singleton] at hq
          subst hq
          decide)
  · exact globalsEval_acyclic_resolves_and_cycle_errors.2 []
      0 [("c", GExpr.globalRef "c")] [("c", GExpr.globalRef "c")] [] []
      (by simp) rfl

theorem addLevelExprs_ok (lvl : List (String × GExpr)) :
    ∀ acc out, addLevelExprs lvl acc = .ok out →
    out = acc ++ lvl ∧
      ((acc.map Prod.fst).Nodup → (out.map Prod.fst).Nodup) := by
  induction lvl with
  | nil =>
    intro acc out h
    simp only [addLevelExprs] at h
    cases h
    exact ⟨by simp, fun h => h⟩
  | cons p rest ih =>
    obtain ⟨name, ex⟩ := p
    intro acc out h
    simp only [addLevelExprs] at h
    by_cases hmem : name ∈ acc.map Prod.fst
    · rw [if_pos hmem] at h; exact Except.noConfusion h
    · rw [if_neg hmem] at h
      obtain ⟨heq, hnd⟩ := ih (acc ++ [(name, ex)]) out h
      constructor
      · rw [heq]; simp
      · intro hacc
        refine hnd ?_
        simp only [List.map_append, List.map_cons, List.map_nil]
        refine List.nodup_append.mpr ⟨hacc, List.nodup_singleton _, ?_⟩
        intro a ha hb
        simp only [List.mem_singleton] at hb
        subst hb
        exact hmem ha

theorem lookupStr_append {α : Type} (k : String) (a b : List (String × α)) :
    lookupStr k (a ++ b) =
      match lookupStr k a with
      | some v => some v
      | none => lookupStr k b := by
  induction a with
  | nil => simp [lookupStr]
  | cons p rest ih =>
    obtain ⟨k2, v⟩ := p
    by_cases he : k2 = k
    · simp [lookupStr, he]
    · simp only [List.cons_append, lookupStr, if_neg he]
      exact ih

theorem mergeGlobalsExprs_lookup_left (cur par : List (String × GExpr))
    (N : String) (e : GExpr) (h : lookupStr N cur = some e) :
    lookupStr N (mergeGlobalsExprs cur par) = some e := by
  rw [mergeGlobalsExprs, lookupStr_append, h]

theorem mergeGlobalsExprs_lookup_right (cur par : List (String × GExpr))
    (N : String) (h : N ∉ cur.map Prod.fst) :
    lookupStr N (mergeGlobalsExprs cur par) = lookupStr N par := by
  rw [mergeGlobalsExprs, lookupStr_append, lookupStr_keys_none N cur h]
  induction par with
  | nil => simp
  | cons p rest ih =>
    obtain ⟨k, v⟩ := p
    by_cases he : k = N
    · subst he
      rw [List.filter_cons_of_pos (by simpa using h)]
      simp [lookupStr]
    · by_cases hk : k ∈ cur.map Prod.fst
      · rw [List.filter_cons_of_neg (by simpa using hk)]
        rw [ih]
        simp only [lookupStr, if_neg he]
      · rw [List.filter_cons_of_pos (by simpa using hk)]
        simp only [lookupStr, if_neg he]
        exact ih

theorem mergeGlobalsExprs_nodup (cur par : List (String × GExpr))
    (hc : (cur.map Prod.fst).Nodup) (hp : (par.map Prod.fst).Nodup) :
    ((mergeGlobalsExprs cur par).map Prod.fst).Nodup := by
  rw [mergeGlobalsExprs, List.map_append]
  refine List.nodup_append.mpr ⟨hc, ?_, ?_⟩
  · exact ((List.filter_sublist par).map Prod.fst).nodup hp
  · intro a ha hb
    obtain ⟨p, hpmem, hfst⟩ := List.mem_map.mp hb
    have := List.of_mem_filter hpmem
    simp only [decide_eq_true_eq] at this
    exact this (hfst ▸ ha)

theorem loadStackGlobalsExprs_nodup :
    ∀ (levels : List (List (String × GExpr))) exprs,
    loadStackGlobalsExprs levels = .ok exprs →
    (exprs.map Prod.fst).Nodup := by
  intro levels
  induction levels with
  | nil =>
    intro exprs h
    simp only [loadStackGlobalsExprs] at h
    cases h
    simp
  | cons lvl parents ih =>
    intro exprs h
    simp only [loadStackGlobalsExprs, bind, Except.bind] at h
    cases hadd : addLevelExprs lvl [] with
    | error e => rw [hadd] at h; exact Except.noConfusion h
    | ok cur =>
      rw [hadd] at h
      cases hpar : loadStackGlobalsExprs parents with
      | error e => rw [hpar] at h; exact Except.noConfusion h
      | ok par =>
        rw [hpar] at h
        cases h
        obtain ⟨_, hnd⟩ := addLevelExprs_ok lvl [] cur hadd
        exact mergeGlobalsExprs_nodup cur par (hnd (by simp)) (ih par hpar)

theorem loadStackGlobalsExprs_shadow :
    ∀ (levels : List (List (String × GExpr))) exprs,
    loadStackGlobalsExprs levels = .ok exprs →
    ∀ (i : Nat) lvlI (N : String) (e1 : GExpr),
    levels.get? i = some lvlI → (N, e1) ∈ lvlI →
    (∀ k lvlK, k < i → levels.get? k = some lvlK → N ∉ lvlK.map Prod.fst) →
    lookupStr N exprs = some e1 := by
  intro levels
  induction levels with
  | nil =>
    intro exprs _ i lvlI N e1 hget
    exact Option.noConfusion hget
  | cons lvl parents ih =>
    intro exprs h i lvlI N e1 hget hmem hshallow
    simp only [loadStackGlobalsExprs, bind, Except.bind] at h
    cases hadd : addLevelExprs lvl [] with
    | error e => rw [hadd] at h; exact Except.noConfusion h
    | ok cur =>
      rw [hadd] at h
      cases hpar : loadStackGlobalsExprs parents with
      | error e => rw [hpar] at h; exact Except.noConfusion h
      | ok par =>
        rw [hpar] at h
        cases h
        obtain ⟨hceq, hnd⟩ := addLevelExprs_ok lvl [] cur hadd
        simp only [List.nil_append] at hceq
        subst hceq
        cases i with
        | zero =>
          simp only [List.get?] at hget
          cases hget
          exact mergeGlobalsExprs_lookup_left _ par N e1
            (mem_lookupStr N e1 _ hmem (hnd (by simp)))
        | succ k =>
          simp only [List.get?] at hget
          have hNlvl : N ∉ cur.map Prod.fst :=
            hshallow 0 cur (Nat.succ_pos k) rfl
          rw [mergeGlobalsExprs_lookup_right _ par N hNlvl]
          refine ih par hpar k lvlI N e1 hget hmem ?_
          intro k2 lvlK hk2 hget2
          exact hshallow (k2 + 1) lvlK (by omega) hget2

/-- C2: if a global `N` is defined at a deeper level `i` (levels are listed
stack-first) and also at a strictly shallower ancestor level `j`, and no
level deeper than `i` defines `N`, then whenever the full pipeline (load
plus fixed-point resolution) succeeds, the resolved value of `global.N` is
the evaluation of the level-`i` (deeper) expression under the final
environment — the ancestor definition is shadowed and ignored. -/
theorem loadStackGlobals_shadowing (tm : List (String × Value))
    (levels : List (List (String × GExpr))) (g : List (String × Value))
    (i j : Nat) (lvlI lvlJ : List (String × GExpr)) (N : String)
    (e1 e2 : GExpr)
    (h : loadStackGlobals tm levels = .ok g)
    (hij : i < j)
    (hgetI : levels.get? i = some lvlI) (hmemI : (N, e1) ∈ lvlI)
    (hgetJ : levels.get? j = some lvlJ) (hmemJ : (N, e2) ∈ lvlJ)
    (hdeep : ∀ k lvlK, k < i → levels.get? k = some lvlK →
      N ∉ lvlK.map Prod.fst) :
    ∃ v, lookupStr N g = some v ∧ evalGExpr tm g e1 = some v := by
  simp only [loadStackGlobals, bind, Except.bind] at h
  cases hload : loadStackGlobalsExprs levels with
  | error e => rw [hload] at h; exact Except.noConfusion h
  | ok exprs =>
    rw [hload] at h
    have hlook : lookupStr N exprs = some e1 :=
      loadStackGlobalsExprs_shadow levels exprs hload i lvlI N e1 hgetI
        hmemI hdeep
    have hnd := loadStackGlobalsExprs_nodup levels exprs hload
    exact globalsExprEval_resolved tm exprs g h hnd N e1
      (lookupStr_mem N e1 exprs hlook)

/-- Witness for C2 at the spec's seed scenario: the root defines
`env = "dev"`, the stack level redefines `env = "prod"`; the resolved value
at the stack is `"prod"`. -/
theorem loadStackGlobals_shadowing_witness :
    ∃ v, lookupStr "env" [("env", Value.str "prod")] = some v ∧
      evalGExpr [] [("env", Value.str "prod")]
        (GExpr.lit (Value.str "prod")) = some v := by
  refine loadStackGlobals_shadowing []
    [[("env", GExpr.lit (Value.str "prod"))],
     [("env", GExpr.lit (Value.str "dev"))]]
    [("env", Value.str "prod")] 0 1
    [("env", GExpr.lit (Value.str "prod"))]
    [("env", GExpr.lit (Value.str "dev"))] "env"
    (GExpr.lit (Value.str "prod")) (GExpr.lit (Value.str "dev"))
    rfl (by omega) rfl (by simp) rfl (by simp) ?_
  intro k lvlK hk
  omega

/-! ## Code generation (generate/generate.go, genfile, genfilehcl)

The generator pipeline is embedded per stack: the loaded generate blocks
become a list of `FileInfo` (the `fileInfo` interface of generate.go), the
stack directory becomes an association list from filename to content. The
`genhcl` package itself is not part of the sources; its two header
constants are modelled from the spec (§6). -/

/-- Sets a key, overwriting an existing entry (Go map assignment /
`os.WriteFile`). -/
def setKey {α : Type} (k : String) (v : α) :
    List (String × α) → List (String × α)
  | [] => [(k, v)]
  | (k2, v2) :: rest =>
    if k2 = k then (k, v) :: rest else (k2, v2) :: setKey k v rest

/-- Modelled from the spec: the `genhcl` package (absent from src/) defines
the current generated-file header line, fixed by §6 of the spec. -/
def genhclHeader : String := "// TERRAMATE: GENERATED AUTOMATICALLY DO NOT EDIT"

/-- Modelled from the spec: the deprecated legacy header (`genhcl.HeaderV0`,
absent from src/), recognized but never written. -/
def genhclHeaderV0 : String := "// GENERATED BY TERRAMATE: DO NOT EDIT"

/-- `hasGenHCLHeader`: a file is Terramate-generated iff its content starts
with the current or the deprecated header. -/
def hasGenHCLHeader (code : String) : Bool :=
  strStartsWith code genhclHeader || strStartsWith code genhclHeaderV0

/-- The `fileInfo` interface of generate.go: one generator output. -/
structure FileInfo where
  name : String
  origin : String
  header : String
  body : String
  condition : Bool
deriving Repr, DecidableEq

/-- A generator output that actually produces a file: its condition holds
and its body is non-empty (`generate.Do` skips the others). -/
def activeFile (f : FileInfo) : Bool :=
  f.condition && !(f.body == "")

/-- Errors of the generation pipeline. -/
inductive GenerateErr where
  | manualCodeExists (path : String)
  | conflictingConfig (name : String)
  | invalidFilePath (name : String)
deriving Repr, DecidableEq

/-- The loop of `validateGeneratedFiles`: `genset` collects seen names,
`condset` the condition of the last block seen under each name; a name
seen again while its recorded condition is true is a conflict. -/
def validateLoop : List FileInfo → List String → List (String × Bool) →
    Except GenerateErr Unit
  | [], _, _ => .ok ()
  | file :: rest, genset, condset =>
    if file.name ∈ genset ∧ (lookupStr file.name condset).getD false = true then
      .error (.conflictingConfig file.name)
    else
      validateLoop rest (genset ++ [file.name])
        (setKey file.name file.condition condset)

/-- `checkGeneratedFilesPaths`: no generated filename may contain a slash. -/
def checkGeneratedFilesPaths (generated : List FileInfo) :
    Except GenerateErr Unit :=
  match generated.find? (fun f => f.name.data.contains '/') with
  | some f => .error (.invalidFilePath f.name)
  | none => .ok ()

/-- `validateGeneratedFiles`. -/
def validateGeneratedFiles (generated : List FileInfo) :
    Except GenerateErr Unit := do
  validateLoop generated [] []
  checkGeneratedFilesPaths generated

/-- `ListStackGenFiles`: the names of the stack files carrying a Terramate
header (the directory listing order is irrelevant to the properties proved
here). -/
def listStackGenFiles (fs : List (String × String)) : List String :=
  (fs.filter (fun p => hasGenHCLHeader p.2)).map Prod.fst

/-- The removal loop of `removeStackGeneratedFiles`: each named file that
exists is deleted from the stack directory and its content remembered. -/
def removeFilesLoop : List String → List (String × String) →
    List (String × String) → List (String × String) × List (String × String)
  | [], removed, fs => (removed, fs)
  | name :: rest, removed, fs =>
    match lookupStr name fs with
    | none => removeFilesLoop rest removed fs
    | some body => removeFilesLoop rest (setKey name body removed)
        (eraseKey name fs)

/-- `removeStackGeneratedFiles`: deletes every detected generated file plus
every file named by a header-less generator, remembering their contents. -/
def removeStackGeneratedFiles (fs : List (String × String))
    (genfiles : List FileInfo) :
    List (String × String) × List (String × String) :=
  removeFilesLoop
    (listStackGenFiles fs ++
      (genfiles.filter (fun f => f.header == "")).map FileInfo.name)
    [] fs

/-- `readGeneratedFile`: reads a file; a present file without a Terramate
header is a `ManualCodeExists` error. -/
def readGeneratedFile (fs : List (String × String)) (path : String) :
    Except GenerateErr (String × Bool) :=
  match lookupStr path fs with
  | none => .ok ("", false)
  | some data =>
    if hasGenHCLHeader data then .ok (data, true)
    else .error (.manualCodeExists path)

/-- `checkFileCanBeOverwritten`. -/
def checkFileCanBeOverwritten (fs : List (String × String)) (path : String) :
    Except GenerateErr Unit := do
  let _ ← readGeneratedFile fs path
  .ok ()

/-- `writeGeneratedCode`: header-carrying outputs refuse to overwrite a
file that is not Terramate-generated; then the file is written. -/
def writeGeneratedCode (fs : List (String × String)) (path : String)
    (file : FileInfo) : Except GenerateErr (List (String × String)) :=
  let body := file.header ++ file.body
  if file.header ≠ "" then
    match checkFileCanBeOverwritten fs path with
    | .error e => .error e
    | .ok _ => .ok (setKey path body fs)
  else .ok (setKey path body fs)

/-- A per-stack generation report (`stackReport`); on the error paths of
`generate.Do` the partial report is augmented with the already removed
files, which the success-path theorems here do not need. -/
structure StackReport where
  created : List String
  changed : List String
  deleted : List String
deriving Repr, DecidableEq

/-- The saving loop of `generate.Do`: files with a false condition or an
empty body are skipped; otherwise the file is written, compared against
the remembered removed content (identical → no report entry, different →
`changed`, not remembered → `created`), and its entry is consumed. -/
def doStackWrites : List FileInfo → List (String × String) →
    List (String × String) → StackReport →
    Except GenerateErr
      (StackReport × List (String × String) × List (String × String))
  | [], removed, fs, rep => .ok (rep, removed, fs)
  | file :: rest, removed, fs, rep =>
    if !file.condition || file.body == "" then
      doStackWrites rest removed fs rep
    else
      match writeGeneratedCode fs file.name file with
      | .error e => .error e
      | .ok fs2 =>
        match lookupStr file.name removed with
        | none =>
          doStackWrites rest removed fs2
            { rep with created := rep.created ++ [file.name] }
        | some removedBody =>
          if file.header ++ file.body ≠ removedBody then
            doStackWrites rest (eraseKey file.name removed) fs2
              { rep with changed := rep.changed ++ [file.name] }
          else
            doStackWrites rest (eraseKey file.name removed) fs2 rep

/-- The per-stack body of `generate.Do`: sort outputs by name, validate,
remove the outdated generated files, save the enabled outputs, and mark the
unconsumed removed files as deleted. -/
def doStack (generated : List FileInfo) (fs : List (String × String)) :
    Except GenerateErr (StackReport × List (String × String)) :=
  let sorted := List.insertionSort
    (fun a b => strLeb a.name b.name = true) generated
  match validateGeneratedFiles sorted with
  | .error e => .error e
  | .ok _ =>
    let rm := removeStackGeneratedFiles fs sorted
    match doStackWrites sorted rm.1 rm.2 ⟨[], [], []⟩ with
    | .error e => .error e
    | .ok (rep, removedLeft, fs2) =>
      .ok ({ rep with deleted := rep.deleted ++ removedLeft.map Prod.fst },
        fs2)

/-! ### Generate-block loaders (genfile.go and genfilehcl.go, claim C5)

Both loaders walk the ancestor chain stack-first; a level is the list of
(label, origin) of its generate blocks. -/

/-- Errors of the block loaders. -/
inductive GenLoadErr where
  | parsing (label : String)
  | multiLevelConflict (label : String)
deriving Repr, DecidableEq

/-- `join` (both loaders): folds the parent entries into the child map,
stopping at the first label the child already has; returns the partially
updated map and whether a conflict was hit (the Go function mutates the
target in place and returns an error). -/
def joinLabels : List (String × String) → List (String × String) →
    List (String × String) × Bool
  | target, [] => (target, false)
  | target, (label, origin) :: rest =>
    if label ∈ target.map Prod.fst then (target, true)
    else joinLabels (target ++ [(label, origin)]) rest

/-- The per-level collection of genfilehcl.go's `loadGenFileBlocks`: two
blocks with the same label at one level are an `ErrParsing` error. -/
def genfilehclLevel : List (String × String) → List (String × String) →
    Except GenLoadErr (List (String × String))
  | [], res => .ok res
  | (label, origin) :: rest, res =>
    if label ∈ res.map Prod.fst then .error (.parsing label)
    else genfilehclLevel rest (res ++ [(label, origin)])

/-- genfilehcl.go `loadGenFileBlocks`: loads the current level, loads the
parent chain, and joins them; a cross-level label conflict is an
`ErrMultiLevelConflict` error. -/
def genfilehclLoadBlocks : List (List (String × String)) →
    Except GenLoadErr (List (String × String))
  | [] => .ok []
  | lvl :: parents => do
    let res ← genfilehclLevel lvl []
    let parentRes ← genfilehclLoadBlocks parents
    match joinLabels res parentRes with
    | (out, false) => .ok out
    | (_, true) => .error (.multiLevelConflict "")

/-- The per-level collection of genfile.go's `loadGenFileBlocks`: the
same-label check is commented out in the source (TODO), so a later block
silently overwrites an earlier one with the same label. -/
def genfileLevel : List (String × String) → List (String × String) →
    List (String × String)
  | [], res => res
  | (label, origin) :: rest, res => genfileLevel rest (setKey label origin res)

/-- genfile.go `loadGenFileBlocks`: loads the current level and the parent
chain, then executes `_ = join(res, parentRes)` — the conflict error is
computed and discarded, so the partially joined map is returned as a
success. -/
def genfileLoadBlocks : List (List (String × String)) →
    Except GenLoadErr (List (String × String))
  | [] => .ok []
  | lvl :: parents => do
    let res := genfileLevel lvl []
    let parentRes ← genfileLoadBlocks parents
    .ok (joinLabels res parentRes).1

/-- C5: the same label on generate blocks at two different directory
levels is a `MultiLevelConflict` error in the genfilehcl loader, but the
genfile loader (generate_file blocks) evaluates the same conflict check,
discards its error (`_ = join(res, parentRes)` with the error return
commented out as a TODO) and returns success, keeping only the deeper
block — contradicting its own documentation ("All generate_file blocks
must have unique labels, even ones at different directories. Any conflicts
will be reported as an error."). -/
theorem loadGenFileBlocks_multilevel_divergence :
    genfilehclLoadBlocks [[("a", "/stack/cfg.tm")], [("a", "/cfg.tm")]] =
      .error (.multiLevelConflict "") ∧
    genfileLoadBlocks [[("a", "/stack/cfg.tm")], [("a", "/cfg.tm")]] =
      .ok [("a", "/stack/cfg.tm")] := by
  exact ⟨rfl, rfl⟩

/-! ### ManualCodeExists (claim C6) -/

/-- C6: for a header-carrying generator output, if the target filename
exists in the stack directory and its content begins with neither the
current nor the deprecated legacy header, writing fails with
`ManualCodeExists` — the user-authored file is never overwritten (the
write is only reachable on the `ok` branch of the check). -/
theorem writeGeneratedCode_manual_code (fs : List (String × String))
    (path : String) (file : FileInfo) (content : String)
    (hhdr : file.header ≠ "")
    (hfs : lookupStr path fs = some content)
    (hnohdr : hasGenHCLHeader content = false) :
    writeGeneratedCode fs path file = .error (.manualCodeExists path) ∧
    ∀ fs2, writeGeneratedCode fs path file ≠ .ok fs2 := by
  have h : writeGeneratedCode fs path file = .error (.manualCodeExists path) := by
    simp only [writeGeneratedCode, if_pos hhdr, checkFileCanBeOverwritten,
      readGeneratedFile, hfs, hnohdr, Bool.false_eq_true, if_false, bind,
      Except.bind]
  exact ⟨h, fun fs2 hok => by rw [h] at hok; exact Except.noConfusion hok⟩

/-- Witness for C6 at a concrete input: a user-authored `main.tf` blocks a
header-carrying generator targeting the same name. -/
theorem writeGeneratedCode_manual_code_witness :
    writeGeneratedCode [("main.tf", "resource {}")] "main.tf"
      ⟨"main.tf", "/cfg.tm", genhclHeader, "\nx = 1", true⟩ =
      .error (.manualCodeExists "main.tf") := by
  exact (writeGeneratedCode_manual_code [("main.tf", "resource {}")]
    "main.tf" ⟨"main.tf", "/cfg.tm", genhclHeader, "\nx = 1", true⟩
    "resource {}" (by decide) rfl (by decide)).1

/-! ### Properties of the generation pipeline (claim C4) -/

theorem lookup_setKey_self {α : Type} (k : String) (v : α)
    (l : List (String × α)) : lookupStr k (setKey k v l) = some v := by
  induction l with
  | nil => simp [setKey, lookupStr]
  | cons p rest ih =>
    obtain ⟨k2, v2⟩ := p
    simp only [setKey]
    by_cases he : k2 = k
    · rw [if_pos he]; simp [lookupStr]
    · rw [if_neg he]
      simp only [lookupStr, if_neg he]
      exact ih

theorem lookup_setKey_ne {α : Type} (k m : String) (v : α)
    (l : List (String × α)) (hne : m ≠ k) :
    lookupStr m (setKey k v l) = lookupStr m l := by
  induction l with
  | nil =>
    simp only [setKey, lookupStr]
    rw [if_neg (fun h : k = m => hne h.symm)]
  | cons p rest ih =>
    obtain ⟨k2, v2⟩ := p
    simp only [setKey]
    by_cases he : k2 = k
    · rw [if_pos he]
      simp only [lookupStr]
      rw [if_neg (fun h : k = m => hne h.symm), if_neg (fun h : k2 = m => hne (he ▸ h).symm)]
    · rw [if_neg he]
      simp only [lookupStr]
      by_cases he2 : k2 = m
      · rw [if_pos he2, if_pos he2]
      · rw [if_neg he2, if_neg he2]
        exact ih

theorem lookup_eraseKey_self {α : Type} (k : String) (l : List (String × α)) :
    lookupStr k (eraseKey k l) = none := by
  induction l with
  | nil => rfl
  | cons p rest ih =>
    obtain ⟨k2, v2⟩ := p
    simp only [eraseKey]
    by_cases he : k2 = k
    · rw [if_pos he]; exact ih
    · rw [if_neg he]
      simp only [lookupStr, if_neg he]
      exact ih

theorem lookup_eraseKey_ne {α : Type} (k m : String) (l : List (String × α))
    (hne : m ≠ k) : lookupStr m (eraseKey k l) = lookupStr m l := by
  induction l with
  | nil => rfl
  | cons p rest ih =>
    obtain ⟨k2, v2⟩ := p
    simp only [eraseKey]
    by_cases he : k2 = k
    · rw [if_pos he]
      simp only [lookupStr]
      rw [if_neg (fun h : k2 = m => hne (h ▸ he ▸ rfl))]
      exact ih
    · rw [if_neg he]
      simp only [lookupStr]
      by_cases he2 : k2 = m
      · rw [if_pos he2, if_pos he2]
      · rw [if_neg he2, if_neg he2]
        exact ih

theorem setKey_keys_mem {α : Type} (k m : String) (v : α)
    (l : List (String × α)) :
    m ∈ (setKey k v l).map Prod.fst ↔ (m = k ∨ m ∈ l.map Prod.fst) := by
  induction l with
  | nil => simp [setKey, eq_comm]
  | cons p rest ih =>
    obtain ⟨k2, v2⟩ := p
    simp only [setKey]
    by_cases he : k2 = k
    · rw [if_pos he]
      subst he
      simp [eq_comm]
    · rw [if_neg he]
      simp only [List.map_cons, List.mem_cons]
      rw [ih]
      constructor
      · rintro (h | h | h)
        · exact Or.inr (Or.inl h)
        · exact Or.inl h
        · exact Or.inr (Or.inr h)
      · rintro (h | h | h)
        · exact Or.inr (Or.inl h)
        · exact Or.inl h
        · exact Or.inr (Or.inr h)

theorem setKey_nodup {α : Type} (k : String) (v : α) (l : List (String × α))
    (h : (l.map Prod.fst).Nodup) : ((setKey k v l).map Prod.fst).Nodup := by
  induction l with
  | nil => simp [setKey]
  | cons p rest ih =>
    obtain ⟨k2, v2⟩ := p
    simp only [List.map_cons, List.nodup_cons] at h
    simp only [setKey]
    by_cases he : k2 = k
    · rw [if_pos he]
      simp only [List.map_cons, List.nodup_cons]
      exact ⟨he ▸ h.1, h.2⟩
    · rw [if_neg he]
      simp only [List.map_cons, List.nodup_cons]
      refine ⟨?_, ih h.2⟩
      intro hmem
      rcases (setKey_keys_mem k k2 v rest).mp hmem with hc | hc
      · exact he hc
      · exact h.1 hc

theorem removeFilesLoop_spec :
    ∀ (files : List String) (removed fs : List (String × String)),
    (∀ n, lookupStr n (removeFilesLoop files removed fs).2 =
      if n ∈ files then none else lookupStr n fs) ∧
    (∀ n, lookupStr n (removeFilesLoop files removed fs).1 =
      if n ∈ files then
        (match lookupStr n fs with
         | some b => some b
         | none => lookupStr n removed)
      else lookupStr n removed) ∧
    ((fs.map Prod.fst).Nodup →
      (((removeFilesLoop files removed fs).2).map Prod.fst).Nodup) := by
  intro files
  induction files with
  | nil =>
    intro removed fs
    refine ⟨fun n => by simp [removeFilesLoop], ?_, fun h => h⟩
    intro n
    simp [removeFilesLoop]
  | cons m rest ih =>
    intro removed fs
    simp only [removeFilesLoop]
    cases hm : lookupStr m fs with
    | none =>
      obtain ⟨ihfs, ihrm, ihnd⟩ := ih removed fs
      refine ⟨?_, ?_, ihnd⟩
      · intro n
        rw [ihfs n]
        by_cases hn : n ∈ rest
        · rw [if_pos hn, if_pos (List.mem_cons_of_mem _ hn)]
        · rw [if_neg hn]
          by_cases hnm : n = m
          · subst hnm
            rw [if_pos (List.mem_cons_self _ _), hm]
          · rw [if_neg (by simp [hnm, hn])]
      · intro n
        rw [ihrm n]
        by_cases hn : n ∈ rest
        · rw [if_pos hn, if_pos (List.mem_cons_of_mem _ hn)]
        · rw [if_neg hn]
          by_cases hnm : n = m
          · subst hnm
            rw [if_pos (List.mem_cons_self _ _), hm]
          · rw [if_neg (by simp [hnm, hn])]
    | some b =>
      obtain ⟨ihfs, ihrm, ihnd⟩ := ih (setKey m b removed) (eraseKey m fs)
      refine ⟨?_, ?_, ?_⟩
      · intro n
        rw [ihfs n]
        by_cases hn : n ∈ rest
        · rw [if_pos hn, if_pos (List.mem_cons_of_mem _ hn)]
        · rw [if_neg hn]
          by_cases hnm : n = m
          · subst hnm
            rw [if_pos (List.mem_cons_self _ _), lookup_eraseKey_self]
          · rw [if_neg (by simp [hnm, hn]), lookup_eraseKey_ne m n fs hnm]
      · intro n
        rw [ihrm n]
        by_cases hnm : n = m
        · subst hnm
          rw [if_pos (List.mem_cons_self _ _)]
          by_cases hn : n ∈ rest
          · rw [if_pos hn, lookup_eraseKey_self, hm, lookup_setKey_self]
          · rw [if_neg hn, hm, lookup_setKey_self]
        · rw [lookup_eraseKey_ne m n fs hnm, lookup_setKey_ne m n b removed hnm]
          by_cases hn : n ∈ rest
          · rw [if_pos hn, if_pos (List.mem_cons_of_mem _ hn)]
          · rw [if_neg hn, if_neg (by simp [hnm, hn])]
      · intro hnd
        exact ihnd (((eraseKey_sublist m fs).map Prod.fst).nodup hnd)

theorem writeGeneratedCode_ok (fs : List (String × String)) (path : String)
    (file : FileInfo) (out : List (String × String))
    (h : writeGeneratedCode fs path file = .ok out) :
    out = setKey path (file.header ++ file.body) fs := by
  simp only [writeGeneratedCode] at h
  by_cases hh : file.header ≠ ""
  · rw [if_pos hh] at h
    cases hc : checkFileCanBeOverwritten fs path with
    | error e => rw [hc] at h; exact Except.noConfusion h
    | ok u => rw [hc] at h; cases h; rfl
  · rw [if_neg hh] at h
    cases h
    rfl

theorem doStackWrites_char :
    ∀ (todo : List FileInfo) (removed fs : List (String × String))
      (rep : StackReport) rep2 removed2 fs2,
    doStackWrites todo removed fs rep = .ok (rep2, removed2, fs2) →
    ((todo.filter activeFile).map FileInfo.name).Nodup →
    (∀ n, n ∉ (todo.filter activeFile).map FileInfo.name →
      lookupStr n fs2 = lookupStr n fs) ∧
    (∀ f ∈ todo, activeFile f = true →
      lookupStr f.name fs2 = some (f.header ++ f.body)) ∧
    (∀ n b, lookupStr n fs2 = some b →
      (∃ f ∈ todo, activeFile f = true ∧ f.name = n ∧ b = f.header ++ f.body) ∨
      lookupStr n fs = some b) ∧
    ((fs.map Prod.fst).Nodup → (fs2.map Prod.fst).Nodup) := by
  intro todo
  induction todo with
  | nil =>
    intro removed fs rep rep2 removed2 fs2 h _
    simp only [doStackWrites] at h
    cases h
    exact ⟨fun n _ => rfl, fun f hf => absurd hf (by simp),
      fun n b hb => Or.inr hb, fun h => h⟩
  | cons f rest ih =>
    intro removed fs rep rep2 removed2 fs2 h hnd
    simp only [doStackWrites] at h
    by_cases hskip : (!f.condition || f.body == "") = true
    · rw [if_pos hskip] at h
      have hact : activeFile f = false := by
        simp only [Bool.or_eq_true] at hskip
        rcases hskip with hc | hc
        · have hcond : f.condition = false := by simpa using hc
          simp [activeFile, hcond]
        · simp [activeFile, hc]
      rw [List.filter_cons_of_neg (by simp [hact])] at hnd ⊢
      obtain ⟨c0, c1, c2, cnd⟩ := ih removed fs rep rep2 removed2 fs2 h hnd
      refine ⟨c0, ?_, ?_, cnd⟩
      · intro g hg hgact
        rcases List.mem_cons.mp hg with hq | hq
        · exfalso
          rw [hq] at hgact
          rw [hgact] at hact
          exact Bool.noConfusion hact
        · exact c1 g hq hgact
      · intro n b hb
        rcases c2 n b hb with ⟨g, hq, hrest⟩ | hq
        · exact Or.inl ⟨g, List.mem_cons_of_mem _ hq, hrest⟩
        · exact Or.inr hq
    · rw [if_neg hskip] at h
      have hact : activeFile f = true := by
        simp only [Bool.or_eq_true, Bool.not_eq_true, not_or,
          Bool.not_eq_false] at hskip
        have h1 : f.condition = true := by simpa using hskip.1
        simp [activeFile, h1, hskip.2]
      rw [List.filter_cons_of_pos (by simp [hact])] at hnd
      simp only [List.map_cons, List.nodup_cons] at hnd
      cases hw : writeGeneratedCode fs f.name f with
      | error e => rw [hw] at h; exact Except.noConfusion h
      | ok fs2a =>
        rw [hw] at h
        dsimp only at h
        have hfs2a : fs2a = setKey f.name (f.header ++ f.body) fs :=
          writeGeneratedCode_ok fs f.name f fs2a hw
        have main : ∀ removedm repm,
            doStackWrites rest removedm fs2a repm = .ok (rep2, removed2, fs2) →
            (∀ n, n ∉ List.map FileInfo.name (List.filter activeFile (f :: rest)) →
              lookupStr n fs2 = lookupStr n fs) ∧
            (∀ g ∈ f :: rest, activeFile g = true →
              lookupStr g.name fs2 = some (g.header ++ g.body)) ∧
            (∀ n b, lookupStr n fs2 = some b →
              (∃ g ∈ f :: rest, activeFile g = true ∧ g.name = n ∧
                b = g.header ++ g.body) ∨ lookupStr n fs = some b) ∧
            ((fs.map Prod.fst).Nodup → (fs2.map Prod.fst).Nodup) := by
          intro removedm repm hrec
          obtain ⟨c0, c1, c2, cnd⟩ := ih removedm fs2a repm rep2 removed2 fs2
            hrec hnd.2
          rw [List.filter_cons_of_pos (by simp [hact])]
          refine ⟨?_, ?_, ?_, ?_⟩
          · intro n hn
            simp only [List.map_cons, List.mem_cons, not_or] at hn
            rw [c0 n hn.2, hfs2a, lookup_setKey_ne _ _ _ _ hn.1]
          · intro g hg hgact
            rcases List.mem_cons.mp hg with hq | hq
            · subst hq
              rw [c0 g.name hnd.1, hfs2a, lookup_setKey_self]
            · exact c1 g hq hgact
          · intro n b hb
            rcases c2 n b hb with ⟨g, hq, hrest⟩ | hq
            · exact Or.inl ⟨g, List.mem_cons_of_mem _ hq, hrest⟩
            · rw [hfs2a] at hq
              by_cases hn : n = f.name
              · subst hn
                rw [lookup_setKey_self] at hq
                cases hq
                exact Or.inl ⟨f, List.mem_cons_self _ _, hact, rfl, rfl⟩
              · rw [lookup_setKey_ne _ _ _ _ hn] at hq
                exact Or.inr hq
          · intro hfsnd
            exact cnd (hfs2a ▸ setKey_nodup _ _ _ hfsnd)
        cases hlook : lookupStr f.name removed with
        | none =>
          rw [hlook] at h
          exact main removed _ h
        | some removedBody =>
          rw [hlook] at h
          dsimp only at h
          by_cases hbody : f.header ++ f.body ≠ removedBody
          · rw [if_pos hbody] at h
            exact main (eraseKey f.name removed) _ h
          · rw [if_neg hbody] at h
            exact main (eraseKey f.name removed) _ h

theorem doStackWrites_rerun :
    ∀ (todo : List FileInfo) (removed fs : List (String × String))
      (rep : StackReport),
    ((todo.filter activeFile).map FileInfo.name).Nodup →
    (∀ f ∈ todo, activeFile f = true →
      lookupStr f.name removed = some (f.header ++ f.body)) →
    (∀ f ∈ todo, activeFile f = true → f.header ≠ "" →
      lookupStr f.name fs = none) →
    ∃ removed2 fs2,
      doStackWrites todo removed fs rep = .ok (rep, removed2, fs2) ∧
      ∀ n, n ∈ removed2.map Prod.fst →
        n ∈ removed.map Prod.fst ∧
          n ∉ (todo.filter activeFile).map FileInfo.name := by
  intro todo
  induction todo with
  | nil =>
    intro removed fs rep _ _ _
    exact ⟨removed, fs, rfl, fun n hn => ⟨hn, by simp⟩⟩
  | cons f rest ih =>
    intro removed fs rep hnd hA hFS
    simp only [doStackWrites]
    by_cases hskip : (!f.condition || f.body == "") = true
    · rw [if_pos hskip]
      have hact : activeFile f = false := by
        simp only [Bool.or_eq_true] at hskip
        rcases hskip with hc | hc
        · have hcond : f.condition = false := by simpa using hc
          simp [activeFile, hcond]
        · simp [activeFile, hc]
      rw [List.filter_cons_of_neg (by simp [hact])] at hnd ⊢
      exact ih removed fs rep hnd
        (fun g hg hgact => hA g (List.mem_cons_of_mem _ hg) hgact)
        (fun g hg hgact hgh => hFS g (List.mem_cons_of_mem _ hg) hgact hgh)
    · rw [if_neg hskip]
      have hact : activeFile f = true := by
        simp only [Bool.or_eq_true, Bool.not_eq_true, not_or,
          Bool.not_eq_false] at hskip
        have h1 : f.condition = true := by simpa using hskip.1
        simp [activeFile, h1, hskip.2]
      have hndc := hnd
      rw [List.filter_cons_of_pos (by simp [hact])] at hndc
      simp only [List.map_cons, List.nodup_cons] at hndc
      -- the write itself succeeds
      have hw : writeGeneratedCode fs f.name f =
          .ok (setKey f.name (f.header ++ f.body) fs) := by
        simp only [writeGeneratedCode]
        by_cases hh : f.header ≠ ""
        · rw [if_pos hh]
          have := hFS f (List.mem_cons_self _ _) hact hh
          simp only [checkFileCanBeOverwritten, readGeneratedFile, this,
            bind, Except.bind]
        · rw [if_neg hh]
      rw [hw]
      dsimp only
      rw [hA f (List.mem_cons_self _ _) hact]
      dsimp only
      rw [if_neg (fun hc : ¬(f.header ++ f.body = f.header ++ f.body) => hc rfl)]
      obtain ⟨removed2, fs2, heq, hout⟩ := ih (eraseKey f.name removed)
        (setKey f.name (f.header ++ f.body) fs) rep hndc.2
        (by
          intro g hg hgact
          have hne : g.name ≠ f.name := by
            intro he
            exact hndc.1 (he ▸ List.mem_map.mpr
              ⟨g, List.mem_filter.mpr ⟨hg, by simp [hgact]⟩, rfl⟩)
          rw [lookup_eraseKey_ne _ _ _ hne]
          exact hA g (List.mem_cons_of_mem _ hg) hgact)
        (by
          intro g hg hgact hgh
          have hne : g.name ≠ f.name := by
            intro he
            exact hndc.1 (he ▸ List.mem_map.mpr
              ⟨g, List.mem_filter.mpr ⟨hg, by simp [hgact]⟩, rfl⟩)
          rw [lookup_setKey_ne _ _ _ _ hne]
          exact hFS g (List.mem_cons_of_mem _ hg) hgact hgh)
      refine ⟨removed2, fs2, heq, ?_⟩
      intro n hn
      obtain ⟨hn1, hn2⟩ := hout n hn
      have hn3 : n ∈ removed.map Prod.fst :=
        ((eraseKey_sublist f.name removed).map Prod.fst).subset hn1
      have hn4 : n ≠ f.name := fun he =>
        eraseKey_keys_not_mem f.name removed (he ▸ hn1)
      rw [List.filter_cons_of_pos (by simp [hact])]
      simp only [List.map_cons, List.mem_cons, not_or]
      exact ⟨hn3, hn4, hn2⟩

theorem validateLoop_later_conflict :
    ∀ (l : List FileInfo) (genset : List String)
      (condset : List (String × Bool)) (n : String),
    n ∈ genset → (lookupStr n condset).getD false = true →
    (∃ h ∈ l, h.name = n) → validateLoop l genset condset ≠ .ok () := by
  intro l
  induction l with
  | nil =>
    rintro genset condset n _ _ ⟨h, hmem, _⟩
    cases hmem
  | cons x rest ih =>
    rintro genset condset n hg hc ⟨h, hmem, hname⟩ hok
    simp only [validateLoop] at hok
    by_cases hcheck : x.name ∈ genset ∧
        (lookupStr x.name condset).getD false = true
    · rw [if_pos hcheck] at hok
      exact Except.noConfusion hok
    · rw [if_neg hcheck] at hok
      rcases List.mem_cons.mp hmem with he | hmem2
      · subst he
        exact hcheck (hname ▸ ⟨hg, hc⟩)
      · refine ih (genset ++ [x.name]) (setKey x.name x.condition condset) n
          (List.mem_append_left _ hg) ?_ ⟨h, hmem2, hname⟩ hok
        by_cases he : n = x.name
        · subst he
          exact absurd ⟨hg, hc⟩ hcheck
        · rw [lookup_setKey_ne _ _ _ _ he]
          exact hc

theorem validateLoop_pair_conflict :
    ∀ (l : List FileInfo) (genset : List String)
      (condset : List (String × Bool)) (f g : FileInfo),
    [f, g].Sublist l → f.condition = true → g.name = f.name →
    validateLoop l genset condset ≠ .ok () := by
  intro l
  induction l with
  | nil =>
    intro genset condset f g hsub
    cases hsub
  | cons x rest ih =>
    intro genset condset f g hsub hfc hgn hok
    simp only [validateLoop] at hok
    by_cases hcheck : x.name ∈ genset ∧
        (lookupStr x.name condset).getD false = true
    · rw [if_pos hcheck] at hok
      exact Except.noConfusion hok
    · rw [if_neg hcheck] at hok
      cases hsub with
      | cons _ hsub2 =>
        exact ih _ _ f g hsub2 hfc hgn hok
      | cons₂ _ hsub2 =>
        refine validateLoop_later_conflict rest (genset ++ [x.name])
          (setKey x.name x.condition condset) x.name
          (List.mem_append_right _ (List.mem_singleton_self _)) ?_
          ⟨g, List.singleton_sublist.mp hsub2, hgn⟩ hok
        rw [lookup_setKey_self, hfc]
        rfl

theorem sublist_map_pullback {α β : Type} (fn : α → β) :
    ∀ (l : List α) (s : List β), s.Sublist (l.map fn) →
    ∃ t : List α, List.Sublist t l ∧ List.map fn t = s := by
  intro l
  induction l with
  | nil =>
    intro s hs
    simp only [List.map_nil] at hs
    have hse : s = [] := List.sublist_nil.mp hs
    subst hse
    exact ⟨[], List.Sublist.refl _, rfl⟩
  | cons x rest ih =>
    intro s hs
    simp only [List.map_cons] at hs
    cases s with
    | nil => exact ⟨[], List.nil_sublist _, rfl⟩
    | cons a s2 =>
      cases hs with
      | cons _ hsub =>
        obtain ⟨t, ht, hmap⟩ := ih (a :: s2) hsub
        exact ⟨t, ht.cons _, hmap⟩
      | cons₂ _ hsub =>
        obtain ⟨t, ht, hmap⟩ := ih s2 hsub
        exact ⟨x :: t, ht.cons₂ _, by simp [hmap]⟩

theorem filter_mono_sublist {α : Type} (p q : α → Bool)
    (hpq : ∀ a, q a = true → p a = true) :
    ∀ l : List α, (l.filter q).Sublist (l.filter p) := by
  intro l
  induction l with
  | nil => simp
  | cons x rest ih =>
    by_cases hq : q x = true
    · rw [List.filter_cons_of_pos hq, List.filter_cons_of_pos (hpq x hq)]
      exact ih.cons₂ _
    · rw [List.filter_cons_of_neg (by simpa using hq)]
      by_cases hp : p x = true
      · rw [List.filter_cons_of_pos hp]
        exact ih.cons _
      · rw [List.filter_cons_of_neg (by simpa using hp)]
        exact ih

theorem validateLoop_condtrue_nodup (l : List FileInfo)
    (h : validateLoop l [] [] = .ok ()) :
    ((l.filter (fun f => f.condition)).map FileInfo.name).Nodup := by
  rw [List.nodup_iff_sublist]
  intro a hsub
  obtain ⟨t, ht, hmap⟩ := sublist_map_pullback FileInfo.name
    (l.filter (fun f => f.condition)) [a, a] hsub
  cases t with
  | nil => exact List.noConfusion hmap
  | cons f t2 =>
    cases t2 with
    | nil => simp at hmap
    | cons g t3 =>
      cases t3 with
      | nil =>
        simp only [List.map_cons, List.map_nil, List.cons.injEq] at hmap
        have hf : f ∈ l.filter (fun f => f.condition) :=
          ht.subset (List.mem_cons_self _ _)
        have hfc : f.condition = true := by
          simpa using (List.mem_filter.mp hf).2
        refine validateLoop_pair_conflict l [] [] f g
          (ht.trans (List.filter_sublist l)) hfc ?_ h
        rw [hmap.2.1, hmap.1]
      | cons z t4 =>
        simp at hmap

/-- C4: running the per-stack generation pipeline a second time over the
filesystem produced by a successful first run, with the generator outputs
unchanged, produces a report whose created, changed and deleted lists are
all empty. The `hheader` hypothesis states that header-carrying outputs
(generate_hcl) start with a recognized Terramate header, which is how the
`genhcl` package (absent from src/) builds them per the spec. -/
theorem doStack_idempotent (generated : List FileInfo)
    (fs : List (String × String)) (rep1 : StackReport)
    (fs1 : List (String × String))
    (hrun1 : doStack generated fs = .ok (rep1, fs1))
    (hfsnd : (fs.map Prod.fst).Nodup)
    (hheader : ∀ f ∈ generated, f.header ≠ "" →
      hasGenHCLHeader (f.header ++ f.body) = true) :
    ∃ rep2 fs2, doStack generated fs1 = .ok (rep2, fs2) ∧
      rep2.created = [] ∧ rep2.changed = [] ∧ rep2.deleted = [] := by
  simp only [doStack] at hrun1 ⊢
  cases hval : validateGeneratedFiles
      (List.insertionSort (fun a b => strLeb a.name b.name = true) generated) with
  | error e => rw [hval] at hrun1; exact Except.noConfusion hrun1
  | ok u =>
    cases u
    rw [hval] at hrun1
    dsimp only at hrun1
    -- abbreviations
    generalize hsrt : List.insertionSort
      (fun a b => strLeb a.name b.name = true) generated = sorted at hval hrun1 ⊢
    have hmemS : ∀ f, f ∈ sorted ↔ f ∈ generated := by
      intro f
      rw [← hsrt]
      exact (List.perm_insertionSort _ generated).mem_iff
    have hheaderS : ∀ f ∈ sorted, f.header ≠ "" →
        hasGenHCLHeader (f.header ++ f.body) = true :=
      fun f hf => hheader f ((hmemS f).mp hf)
    -- the first run's write step
    cases hwr : doStackWrites sorted (removeStackGeneratedFiles fs sorted).1
        (removeStackGeneratedFiles fs sorted).2 ⟨[], [], []⟩ with
    | error e => rw [hwr] at hrun1; exact Except.noConfusion hrun1
    | ok res =>
      obtain ⟨rep, removedLeft, fsw⟩ := res
      rw [hwr] at hrun1
      dsimp only at hrun1
      have hfs1 : fs1 = fsw := by
        cases hrun1
        rfl
      subst hfs1
      -- validation facts
      have hval2 : validateLoop sorted [] [] = .ok () := by
        simp only [validateGeneratedFiles, bind, Except.bind] at hval
        cases hvl : validateLoop sorted [] [] with
        | error e => rw [hvl] at hval; exact Except.noConfusion hval
        | ok u2 => cases u2; rfl
      have hcondnd := validateLoop_condtrue_nodup sorted hval2
      have hU : ((sorted.filter activeFile).map FileInfo.name).Nodup := by
        refine List.Nodup.sublist (List.Sublist.map _ ?_) hcondnd
        refine filter_mono_sublist _ _ ?_ sorted
        intro a ha
        simp only [activeFile, Bool.and_eq_true] at ha
        exact ha.1
      -- removal and write characterizations of the first run
      obtain ⟨hRfs, hRrm, hRnd⟩ := removeFilesLoop_spec
        (listStackGenFiles fs ++
          (sorted.filter (fun f => f.header == "")).map FileInfo.name) [] fs
      obtain ⟨hc0, hc1, hc2, hcnd⟩ := doStackWrites_char sorted
        (removeStackGeneratedFiles fs sorted).1
        (removeStackGeneratedFiles fs sorted).2 ⟨[], [], []⟩
        rep removedLeft fs1 hwr hU
      have hfs1nd : (fs1.map Prod.fst).Nodup := hcnd (hRnd hfsnd)
      -- second-run removal characterization
      obtain ⟨hR2fs, hR2rm, _⟩ := removeFilesLoop_spec
        (listStackGenFiles fs1 ++
          (sorted.filter (fun f => f.header == "")).map FileInfo.name) [] fs1
      -- active files were rewritten with identical content and are listed
      have hactfiles : ∀ f ∈ sorted, activeFile f = true →
          f.name ∈ listStackGenFiles fs1 ++
            (sorted.filter (fun f => f.header == "")).map FileInfo.name := by
        intro f hf hfact
        by_cases hh : f.header = ""
        · refine List.mem_append_right _ ?_
          exact List.mem_map.mpr ⟨f, List.mem_filter.mpr ⟨hf, by simp [hh]⟩, rfl⟩
        · refine List.mem_append_left _ ?_
          have hlook := hc1 f hf hfact
          have hmem := lookupStr_mem _ _ _ hlook
          exact List.mem_map.mpr ⟨(f.name, f.header ++ f.body),
            List.mem_filter.mpr ⟨hmem, by simp [hheaderS f hf hh]⟩, rfl⟩
      -- hypotheses of the second-run write loop
      have hA2 : ∀ f ∈ sorted, activeFile f = true →
          lookupStr f.name (removeStackGeneratedFiles fs1 sorted).1 =
            some (f.header ++ f.body) := by
        intro f hf hfact
        simp only [removeStackGeneratedFiles]
        rw [hR2rm f.name, if_pos (hactfiles f hf hfact), hc1 f hf hfact]
      have hFS2 : ∀ f ∈ sorted, activeFile f = true → f.header ≠ "" →
          lookupStr f.name (removeStackGeneratedFiles fs1 sorted).2 = none := by
        intro f hf hfact _
        simp only [removeStackGeneratedFiles]
        rw [hR2fs f.name, if_pos (hactfiles f hf hfact)]
      obtain ⟨removed2, fsX, heq2, hout2⟩ := doStackWrites_rerun sorted
        (removeStackGeneratedFiles fs1 sorted).1
        (removeStackGeneratedFiles fs1 sorted).2 ⟨[], [], []⟩ hU hA2 hFS2
      -- nothing remains to be reported deleted
      have hempty : removed2.map Prod.fst = [] := by
        refine List.eq_nil_iff_forall_not_mem.mpr ?_
        intro n hn
        obtain ⟨hn1, hn2⟩ := hout2 n hn
        obtain ⟨b, hb⟩ := lookupStr_some_of_mem_keys n _ hn1
        simp only [removeStackGeneratedFiles] at hb
        rw [hR2rm n] at hb
        by_cases hnf : n ∈ listStackGenFiles fs1 ++
            (sorted.filter (fun f => f.header == "")).map FileInfo.name
        · rw [if_pos hnf] at hb
          have hfs1b : lookupStr n fs1 = some b := by
            cases hlk : lookupStr n fs1 with
            | none => rw [hlk] at hb; simp [lookupStr] at hb
            | some c =>
              rw [hlk] at hb
              dsimp only at hb
              exact hb
          -- n must be an active name
          rcases hc2 n b hfs1b with ⟨f, hf, hfact, hfn, _⟩ | hold
          · exact hn2 (hfn ▸ List.mem_map.mpr
              ⟨f, List.mem_filter.mpr ⟨hf, by simp [hfact]⟩, rfl⟩)
          · -- the content survived the first run untouched
            simp only [removeStackGeneratedFiles] at hold
            rw [hRfs n] at hold
            by_cases hnf1 : n ∈ listStackGenFiles fs ++
                (sorted.filter (fun f => f.header == "")).map FileInfo.name
            · rw [if_pos hnf1] at hold
              exact Option.noConfusion hold
            · rw [if_neg hnf1] at hold
              rcases List.mem_append.mp hnf with hngen | hnhdr
              · -- n carries a header in fs1, so it carried one in fs too
                obtain ⟨p, hp, hpfst⟩ := List.mem_map.mp hngen
                have hpc := List.mem_filter.mp hp
                have hlkp : lookupStr n fs1 = some p.2 := by
                  rw [← hpfst]
                  exact mem_lookupStr p.1 p.2 fs1
                    (by rw [show (p.1, p.2) = p from rfl]; exact hpc.1) hfs1nd
                have hbp : b = p.2 := by
                  rw [hfs1b] at hlkp
                  exact Option.some.inj hlkp
                have hhb : hasGenHCLHeader b = true := by
                  rw [hbp]
                  simpa using hpc.2
                refine hnf1 (List.mem_append_left _ ?_)
                exact List.mem_map.mpr ⟨(n, b),
                  List.mem_filter.mpr ⟨lookupStr_mem n b fs hold,
                    by simp [hhb]⟩, rfl⟩
              · exact hnf1 (List.mem_append_right _ hnhdr)
        · rw [if_neg hnf] at hb
          simp [lookupStr] at hb
      -- assemble the second run
      rw [heq2]
      refine ⟨⟨[], [], [] ++ removed2.map Prod.fst⟩, fsX, rfl, rfl, rfl, ?_⟩
      simp [hempty]

/-- Witness for C4 at a concrete input: a single enabled `generate_hcl`
output over an empty stack directory; the first run creates the file, the
second run reports nothing. -/
theorem doStack_idempotent_witness :
    ∃ rep2 fs2,
      doStack [⟨"out.tf", "/cfg.tm", genhclHeader, "\nx = 1", true⟩]
        [("out.tf", genhclHeader ++ "\nx = 1")] = .ok (rep2, fs2) ∧
      rep2.created = [] ∧ rep2.changed = [] ∧ rep2.deleted = [] := by
  refine doStack_idempotent
    [⟨"out.tf", "/cfg.tm", genhclHeader, "\nx = 1", true⟩] []
    ⟨["out.tf"], [], []⟩ [("out.tf", genhclHeader ++ "\nx = 1")]
    ?_ (by decide) ?_
  · rfl
  · intro f hf
    fin_cases hf
    intro _
    decide

/-! ## The partial evaluator (hcl/eval partial.go in src/hcl/hcl.go)

The token-stream engine is embedded over an explicit token type (mirroring
the `hclsyntax.Token` kinds the engine inspects) and an explicit engine
state. The Go code mutates an `engine` struct; here every operation maps a
state to a state (or an error). Loops become fuel-indexed recursion: the
engine's `PartialEval` takes a fuel argument, and the theorems exhibit
sufficient fuel. Go panics become `.panicErr` errors; reading past the end
of the token array (which would panic in Go and never happens on the
inputs considered) yields an EOF token. `errutil.Chain` becomes a list of
error kinds, outermost first. -/

/-- The token types the engine dispatches on. -/
inductive TokType where
  | oBrace | cBrace | oBrack | cBrack | oParen | cParen
  | oQuote | cQuote | quotedLit | templateInterp | templateSeqEnd
  | ident | numberLit | dot | comma | colon | question | equal
  | star | slash | percent | plus | minus | bang
  | eqOp | neq | lt | leq | gt | geq | orOp | andOp
  | newline | comment | oHeredoc | cHeredoc | ellipsis | eof
deriving Repr, DecidableEq

/-- A token: its type and its bytes. -/
structure Token where
  type : TokType
  bytes : String
deriving Repr, DecidableEq

/-- Byte concatenation of a token stream. -/
def tokensBytes : List Token → String
  | [] => ""
  | t :: rest => t.bytes ++ tokensBytes rest

def isCmpOp (t : TokType) : Bool :=
  match t with
  | .eqOp | .neq | .lt | .leq | .gt | .geq => true
  | _ => false

def isLogicOp (t : TokType) : Bool :=
  match t with
  | .orOp | .andOp | .bang => true
  | _ => false

def isArithOp (t : TokType) : Bool :=
  match t with
  | .plus | .minus | .star | .slash | .percent => true
  | _ => false

def isBinOp (t : TokType) : Bool :=
  isCmpOp t || isArithOp t || isLogicOp t

def isForExpr (tok : Token) : Bool :=
  tok.type = .ident && tok.bytes = "for"

def tokenOQuote : Token := ⟨.oQuote, "\""⟩
def tokenCQuote : Token := ⟨.cQuote, "\""⟩
def tokenOBrack : Token := ⟨.oBrack, "["⟩
def tokenCBrack : Token := ⟨.cBrack, "]"⟩
def eofToken : Token := ⟨.eof, ""⟩

mutual
/-- Serialization of a value back to tokens (`hclwrite.TokensForValue`;
the exact whitespace layout of the library is irrelevant to the claims —
what matters is that collections open with `[` / `{`). -/
def tokensForValue : Value → List Token
  | .str s => [tokenOQuote, ⟨.quotedLit, s⟩, tokenCQuote]
  | .num n => [⟨.numberLit, toString n⟩]
  | .bool b => [⟨.ident, if b then "true" else "false"⟩]
  | .vnull => [⟨.ident, "null"⟩]
  | .list xs => [tokenOBrack] ++ tokensForValueList xs ++ [tokenCBrack]
  | .object fs => [⟨.oBrace, "\x7b"⟩] ++ tokensForValueFields fs ++ [⟨.cBrace, "\x7d"⟩]

def tokensForValueList : List Value → List Token
  | [] => []
  | [x] => tokensForValue x
  | x :: rest => tokensForValue x ++ [⟨.comma, ","⟩] ++ tokensForValueList rest

def tokensForValueFields : List (String × Value) → List Token
  | [] => []
  | (k, v) :: rest =>
    [⟨.ident, k⟩, ⟨.equal, "="⟩] ++ tokensForValue v ++ [⟨.newline, "\n"⟩] ++
      tokensForValueFields rest
end

/-- Error kinds; an engine error is an `errutil.Chain`, outermost first. -/
inductive EngErrKind where
  | partialEval
  | forExprDisallowEval
  | interpolationEval
  | evalErr
  | malformed
  | panicErr
  | outOfFuel
deriving Repr, DecidableEq

/-- A scratch node: source tokens consumed and evaluated tokens produced,
plus the conditional/operation markers. -/
structure ENode where
  source : List Token
  evaluated : List Token
  hasCond : Bool
  hasOp : Bool
deriving Repr, DecidableEq

def ENode.empty : ENode := ⟨[], [], false, false⟩

/-- The evaluation context of the partial evaluator: the two Terramate
namespaces plus the `tm_*` function table (abstract — no claim evaluates a
`tm_` call). -/
structure ECtx where
  global : List (String × Value)
  terramate : List (String × Value)
  tmFun : List Token → Option Value

/-- The engine state: the (immutable) token array, the position, the stack
of scratch nodes — the head of `stack` is the innermost node, i.e. the
tail of the Go `evalstack` — and the parenthesis depth. -/
structure EngSt where
  tokens : List Token
  pos : Nat
  stack : List ENode
  nparen : Nat
deriving Repr

def EngSt.hasTokens (e : EngSt) : Bool := e.pos < e.tokens.length

def EngSt.peek (e : EngSt) : Token := (e.tokens.drop e.pos).headD eofToken

def EngSt.peekn (e : EngSt) (n : Nat) : Token :=
  (e.tokens.drop (e.pos + n)).headD eofToken

def EngSt.newnode (e : EngSt) : EngSt :=
  { e with stack := ENode.empty :: e.stack }

/-- `commit`: merge the innermost node into its parent. -/
def EngSt.commit (e : EngSt) : Except (List EngErrKind) EngSt :=
  match e.stack with
  | tail :: merge :: rest =>
    .ok { e with stack :=
      { merge with
        source := merge.source ++ tail.source,
        evaluated := merge.evaluated ++ tail.evaluated,
        hasCond := merge.hasCond || tail.hasCond,
        hasOp := merge.hasOp || tail.hasOp } :: rest }
  | _ => .error [.panicErr]

/-- `emit`: copy the current token to the innermost node (both streams)
and advance. -/
def EngSt.emit (e : EngSt) : EngSt :=
  match e.stack with
  | tail :: rest =>
    { e with
      stack := { tail with
        source := tail.source ++ [e.peek],
        evaluated := tail.evaluated ++ [e.peek] } :: rest,
      pos := e.pos + 1 }
  | [] => { e with pos := e.pos + 1 }

def isNlOrComment (t : TokType) : Bool :=
  t = .newline || t = .comment

def emitnlFuel : Nat → EngSt → EngSt
  | 0, e => e
  | n + 1, e =>
    if e.hasTokens && isNlOrComment e.peek.type then emitnlFuel n e.emit
    else e

/-- `emitnl`: emit newline and comment tokens. -/
def EngSt.emitnl (e : EngSt) : EngSt :=
  emitnlFuel (e.tokens.length + 1) e

/-- `emitnlparens`: like `emitnl` but only inside parentheses. -/
def EngSt.emitnlparens (e : EngSt) : EngSt :=
  if e.nparen > 0 then e.emitnl else e

def skipNewLinesFuel : Nat → EngSt → Nat → Nat
  | 0, _, i => i
  | n + 1, e, i =>
    if e.hasTokens && isNlOrComment (e.peekn i).type then
      skipNewLinesFuel n e (i + 1)
    else i

/-- `skipNewLines`: the index (relative to the position) of the next token
that is no newline or comment. -/
def EngSt.skipNewLines (e : EngSt) (i : Nat) : Nat :=
  skipNewLinesFuel (e.tokens.length + 1) e i

/-- The low-level `variable` representation: name-chain tokens, index
tokens, and whether the root identifier is `global` or `terramate`. -/
structure EngVar where
  name : List Token
  index : List Token
  isTerramate : Bool
deriving Repr, DecidableEq

/-- `variable.alltokens`. -/
def EngVar.alltokens (v : EngVar) : List Token :=
  if v.index.length > 0 then
    v.name ++ [tokenOBrack] ++ v.index ++ [tokenCBrack]
  else v.name

/-- `variable.size`. -/
def EngVar.size (v : EngVar) : Nat :=
  if v.index.length > 0 then v.name.length + v.index.length + 2
  else v.name.length

/-- The bracket-matching loop of `parseIndexing`, returning the position
of the closing bracket (`none` models the Go panic on malformed input). -/
def parseIndexingLoop : Nat → List Token → Nat → Nat → Option Nat
  | 0, _, pos, _ => some pos
  | n + 1, tokens, pos, matching =>
    if pos < tokens.length then
      let t := (tokens.drop pos).headD eofToken
      let matching2 :=
        if t.type = .oBrack then matching + 1
        else if t.type = .cBrack then matching - 1
        else matching
      if matching2 = 0 then
        if ((tokens.drop (pos + 1)).headD eofToken).type = .oBrack then
          parseIndexingLoop n tokens (pos + 2) (matching2 + 1)
        else some pos
      else parseIndexingLoop n tokens (pos + 1) matching2
    else some pos

/-- `parseIndexing`: the tokens between the outer brackets of an index
sequence, `none` for the Go panics. -/
def parseIndexing (tokens : List Token) : Option (List Token) :=
  if (tokens.headD eofToken).type ≠ .oBrack then none
  else
    match parseIndexingLoop (tokens.length + 1) tokens 1 1 with
    | none => none
    | some pos =>
      if ((tokens.drop pos).headD eofToken).type ≠ .cBrack then none
      else some ((tokens.drop 1).take (pos - 1))

/-- The chain-scanning loop of `parseVariable` (positions are relative to
the engine position, matching the Go slice `e.tokens[e.pos:]`). -/
def parseVarLoop : Nat → EngSt → Nat → Nat → Bool → Nat
  | 0, _, _, pos, _ => pos
  | n + 1, e, tokLen, pos, wantDot =>
    if pos < tokLen then
      let pos2 := if e.nparen > 0 then e.skipNewLines pos else pos
      let tok := e.peekn pos2
      if wantDot then
        if tok.type ≠ .dot then pos2
        else parseVarLoop n e tokLen (pos2 + 1) (!wantDot)
      else
        if tok.type ≠ .ident ∧ tok.type ≠ .numberLit ∧ tok.type ≠ .star then
          pos2
        else parseVarLoop n e tokLen (pos2 + 1) (!wantDot)
    else pos

/-- `parseVariable` on the tokens from the current position: `.ok none`
when no variable starts here, `.error` for the (unreachable on the inputs
considered) `parseIndexing` panics. -/
def parseVariable (e : EngSt) : Except (List EngErrKind) (Option EngVar) :=
  let tokens := e.tokens.drop e.pos
  if tokens.length < 3 then .ok none
  else if (tokens.headD eofToken).type ≠ .ident then .ok none
  else
    let pos := parseVarLoop (e.tokens.length + 1) e tokens.length
      (e.skipNewLines 1) true
    if pos < 3 then .ok none
    else
      let name := tokens.take pos
      let nsvar := (name.headD eofToken).bytes
      let isTm := nsvar = "global" ∨ nsvar = "terramate"
      if pos < tokens.length ∧
          ((tokens.drop pos).headD eofToken).type = .oBrack then
        match parseIndexing (tokens.drop pos) with
        | none => .error [.panicErr]
        | some index => .ok (some ⟨name, index, isTm⟩)
      else .ok (some ⟨name, [], isTm⟩)

/-- `emitVariable`: the variable's tokens are emitted as evaluated output
while the consumed source tokens are recorded, advancing by its size. -/
def EngSt.emitVariable (e : EngSt) (v : EngVar) : EngSt :=
  match e.stack with
  | tail :: rest =>
    { e with
      stack := { tail with
        evaluated := tail.evaluated ++ v.alltokens,
        source := tail.source ++ (e.tokens.drop e.pos).take v.size } :: rest,
      pos := e.pos + v.size }
  | [] => { e with pos := e.pos + v.size }

/-- `emitTokens`. -/
def EngSt.emitTokens (e : EngSt) (source evaluated : List Token) : EngSt :=
  match e.stack with
  | tail :: rest =>
    { e with stack := { tail with
      evaluated := tail.evaluated ++ evaluated,
      source := tail.source ++ source } :: rest }
  | [] => e

/-- `canEvaluateIdent`: the identifier is followed by a dot or an open
parenthesis. -/
def EngSt.canEvaluateIdent (e : EngSt) : Bool :=
  if (e.tokens.drop e.pos).length < 2 then false
  else
    let i := e.skipNewLines 1
    (e.peekn i).type = .dot || (e.peekn i).type = .oParen

/-- Attribute-chain evaluation over object values, the fragment of the HCL
library evaluation (`ctx.Eval` of a reparsed variable) that the terramate
variables of the claims exercise; anything else is an evaluation error. -/
def evalChainValue : Value → List Token → Option Value
  | v, [] => some v
  | v, t1 :: t2 :: rest =>
    if t1.type = .dot ∧ t2.type = .ident then
      match v with
      | .object fields =>
        match lookupStr t2.bytes fields with
        | some v2 => evalChainValue v2 rest
        | none => none
      | _ => none
    else none
  | _, _ => none

/-- `ctx.Eval` of a parsed variable expression. -/
def ctxEvalVar (ctx : ECtx) (v : EngVar) : Option Value :=
  if v.index.length > 0 then none
  else
    match v.name with
    | root :: chain =>
      if root.type = .ident then
        if root.bytes = "global" then
          evalChainValue (.object ctx.global) chain
        else if root.bytes = "terramate" then
          evalChainValue (.object ctx.terramate) chain
        else none
      else none
    | [] => none

/-- `isSameTokens`. -/
def isSameTokens (a b : List Token) : Bool := decide (a = b)

/-- The leading `! - comment` loop of `evalExpr`. -/
def evalExprPrefix : Nat → EngSt → EngSt
  | 0, e => e
  | n + 1, e =>
    let e := e.emitnlparens
    match e.peek.type with
    | .bang | .minus | .comment => evalExprPrefix n e.emit
    | _ => e

/-- `evalVar`: a non-terramate variable is emitted verbatim; a terramate
variable is evaluated through the context and its value serialized. -/
def evalVar (ctx : ECtx) (e : EngSt) : Except (List EngErrKind) EngSt :=
  let e := e.newnode
  match parseVariable e with
  | .error err => .error err
  | .ok none => .error [.panicErr]
  | .ok (some v) =>
    if !v.isTerramate then .ok (e.emitVariable v)
    else
      match ctxEvalVar ctx v with
      | none => .error [.evalErr]
      | some val =>
        .ok { e.emitTokens ((e.tokens.drop e.pos).take v.size)
            (tokensForValue val) with pos := e.pos + v.size }

/-- Appends bytes onto the last produced token (the mutation of `last` in
`evalString`). -/
def appendBytesToLast (l : List Token) (b : String) : List Token :=
  match l.getLast? with
  | some t => l.dropLast ++ [⟨t.type, t.bytes ++ b⟩]
  | none => l

/-- The merging loop over the interpolation parts of a multi-piece quoted
string: a part whose evaluated tokens open a collection is an
`InterpolationEval` error; literal pieces and evaluated scalars merge into
quoted-literal tokens; kept interpolations pass through. The state is
(source, evaluated, whether a last token exists to merge into). -/
def stringPartsFold : List ENode → List Token × List Token × Bool →
    Except (List EngErrKind) (List Token × List Token × Bool)
  | [], st => .ok st
  | nd :: parts, (src, ev, lastSet) =>
    match nd.evaluated.head? with
    | none => .error [.panicErr]
    | some t =>
      match t.type with
      | .oBrace | .oBrack => .error [.interpolationEval, .malformed]
      | .quotedLit =>
        if nd.evaluated.length > 1 then .error [.panicErr]
        else stringPartsFold parts (src ++ nd.source, ev ++ nd.evaluated, true)
      | .templateInterp =>
        stringPartsFold parts (src ++ nd.source, ev ++ nd.evaluated, true)
      | .numberLit | .ident =>
        if nd.evaluated.length ≠ 1 then .error [.panicErr]
        else if lastSet then
          stringPartsFold parts (src, appendBytesToLast ev t.bytes, true)
        else
          stringPartsFold parts
            (src ++ nd.source, ev ++ [⟨.quotedLit, t.bytes⟩], true)
      | .oQuote =>
        if nd.evaluated.length ≠ 3 then .error [.panicErr]
        else
          let bytes := ((nd.evaluated.drop 1).headD eofToken).bytes
          if lastSet then
            stringPartsFold parts (src, appendBytesToLast ev bytes, true)
          else
            stringPartsFold parts
              (src ++ nd.source, ev ++ [⟨.quotedLit, bytes⟩], true)
      | _ => .error [.panicErr]

/-- No `.`/`(` token: the serialized form of a value never looks like an
unevaluated variable chain or function call. -/
def noDotParen (l : List Token) : Prop :=
  ∀ t ∈ l, t.type ≠ .dot ∧ t.type ≠ .oParen

mutual
theorem tokensForValue_noDotParen (v : Value) : noDotParen (tokensForValue v) := by
  match v with
  | .str s =>
    intro t ht
    simp [tokensForValue, tokenOQuote, tokenCQuote] at ht
    rcases ht with rfl | rfl | rfl <;> exact ⟨by simp, by simp⟩
  | .num n => intro t ht; simp [tokensForValue] at ht; subst ht; exact ⟨by simp, by simp⟩
  | .bool b => intro t ht; simp [tokensForValue] at ht; subst ht; exact ⟨by simp, by simp⟩
  | .vnull => intro t ht; simp [tokensForValue] at ht; subst ht; exact ⟨by simp, by simp⟩
  | .list xs =>
    intro t ht
    simp [tokensForValue, tokenOBrack, tokenCBrack] at ht
    rcases ht with rfl | ht | rfl
    · exact ⟨by simp, by simp⟩
    · exact tokensForValueList_noDotParen xs t ht
    · exact ⟨by simp, by simp⟩
  | .object fs =>
    intro t ht
    simp [tokensForValue] at ht
    rcases ht with rfl | ht | rfl
    · exact ⟨by simp, by simp⟩
    · exact tokensForValueFields_noDotParen fs t ht
    · exact ⟨by simp, by simp⟩

theorem tokensForValueList_noDotParen (xs : List Value) :
    noDotParen (tokensForValueList xs) := by
  match xs with
  | [] => intro t ht; simp [tokensForValueList] at ht
  | [x] =>
    intro t ht
    exact tokensForValue_noDotParen x t ht
  | x :: y :: rest =>
    intro t ht
    simp only [tokensForValueList, List.append_assoc, List.mem_append,
      List.mem_singleton] at ht
    rcases ht with ht | rfl | ht
    · exact tokensForValue_noDotParen x t ht
    · exact ⟨by simp, by simp⟩
    · exact tokensForValueList_noDotParen (y :: rest) t ht

theorem tokensForValueFields_noDotParen (fs : List (String × Value)) :
    noDotParen (tokensForValueFields fs) := by
  match fs with
  | [] => intro t ht; simp [tokensForValueFields] at ht
  | (k, v) :: rest =>
    intro t ht
    simp only [tokensForValueFields, List.append_assoc, List.cons_append,
      List.nil_append, List.mem_cons, List.mem_append,
      List.mem_singleton] at ht
    rcases ht with rfl | rfl | ht | rfl | ht
    · exact ⟨by simp, by simp⟩
    · exact ⟨by simp, by simp⟩
    · exact tokensForValue_noDotParen v t ht
    · exact ⟨by simp, by simp⟩
    · exact tokensForValueFields_noDotParen rest t ht
end

mutual
/-- The grammar of HCL expressions used to state the byte-preservation
claim: unary prefixes, terms (number, identifier, variable chain,
parenthesized expression, quoted string with interpolations, list, object,
function call) and an operator/conditional tail — mirroring exactly the
shapes `evalExpr` consumes (accessors, heredocs, newlines and comments are
outside this fragment). -/
inductive CExpr where
  | mk (pref : List Token) (t : CTerm) (tl : CTail)
inductive CTail where
  | nil
  | binop (op : Token) (e : CExpr)
  | cond (e1 e2 : CExpr)
inductive CTerm where
  | num (b : String)
  | bare (b : String)
  | varc (root c0 : String) (chain : List String)
  | paren (e : CExpr)
  | strT (ps : List CPiece)
  | listT (es : List CExpr)
  | objT (fs : List CField)
  | call (f : String) (args : List CExpr)
inductive CField where
  | mk (key : CExpr) (sep : Token) (val : CExpr)
inductive CPiece where
  | lit (b : String)
  | interp (e : CExpr)
end

/-- The `.c1.c2...` continuation of a variable chain. -/
def chainToks : List String → List Token
  | [] => []
  | c :: r => ⟨.dot, "."⟩ :: ⟨.ident, c⟩ :: chainToks r

mutual
/-- The token stream of an expression of the grammar. -/
def exprToks : CExpr → List Token
  | .mk pref t tl => pref ++ termToks t ++ tailToks tl

def tailToks : CTail → List Token
  | .nil => []
  | .binop op e => op :: exprToks e
  | .cond e1 e2 =>
    ⟨.question, "?"⟩ :: exprToks e1 ++ ⟨.colon, ":"⟩ :: exprToks e2

def termToks : CTerm → List Token
  | .num b => [⟨.numberLit, b⟩]
  | .bare b => [⟨.ident, b⟩]
  | .varc root c0 chain =>
    ⟨.ident, root⟩ :: ⟨.dot, "."⟩ :: ⟨.ident, c0⟩ :: chainToks chain
  | .paren e => ⟨.oParen, "("⟩ :: exprToks e ++ [⟨.cParen, ")"⟩]
  | .strT ps => tokenOQuote :: piecesToks ps ++ [tokenCQuote]
  | .listT es => tokenOBrack :: elemsToks es ++ [tokenCBrack]
  | .objT fs => ⟨.oBrace, "\x7b"⟩ :: fieldsToks fs ++ [⟨.cBrace, "\x7d"⟩]
  | .call f args =>
    ⟨.ident, f⟩ :: ⟨.oParen, "("⟩ :: argsToks args ++ [⟨.cParen, ")"⟩]

def piecesToks : List CPiece → List Token
  | [] => []
  | p :: r => pieceToks p ++ piecesToks r

def pieceToks : CPiece → List Token
  | .lit b => [⟨.quotedLit, b⟩]
  | .interp e =>
    ⟨.templateInterp, "$\x7b"⟩ :: exprToks e ++ [⟨.templateSeqEnd, "\x7d"⟩]

def elemsToks : List CExpr → List Token
  | [] => []
  | e :: r => exprToks e ++ ⟨.comma, ","⟩ :: elemsToks r

def fieldsToks : List CField → List Token
  | [] => []
  | .mk k s v :: r => exprToks k ++ s :: exprToks v ++ ⟨.comma, ","⟩ :: fieldsToks r

def argsToks : List CExpr → List Token
  | [] => []
  | a :: r => exprToks a ++ ⟨.comma, ","⟩ :: argsToks r
end

/-- A prefix token of an expression: `!` or `-`. -/
def prefOk (t : Token) : Bool := t.type = .bang || t.type = .minus

mutual
/-- A clean expression: no variable rooted at `global` or `terramate`, no
`tm_`-prefixed function call, operators/separators of the right token
types, and no identifier that could start a for-expression. -/
def cleanE : CExpr → Bool
  | .mk pref t tl => pref.all prefOk && cleanT t && cleanTl tl

def cleanTl : CTail → Bool
  | .nil => true
  | .binop op e => isBinOp op.type && cleanE e
  | .cond e1 e2 => cleanE e1 && cleanE e2

def cleanT : CTerm → Bool
  | .num _ => true
  | .bare b => !(b == "for")
  | .varc root _ _ =>
    !(root == "global" || root == "terramate" || root == "for" ||
      root == "true" || root == "false" || root == "null")
  | .paren e => cleanE e
  | .strT ps => cleanPs ps
  | .listT es => cleanEs es
  | .objT fs => cleanFs fs
  | .call f args =>
    !(f == "for" || f == "true" || f == "false" || f == "null") &&
      !(strStartsWith f "tm_") && cleanEs args

def cleanPs : List CPiece → Bool
  | [] => true
  | p :: r => cleanP p && cleanPs r

def cleanP : CPiece → Bool
  | .lit _ => true
  | .interp e => cleanE e

def cleanEs : List CExpr → Bool
  | [] => true
  | e :: r => cleanE e && cleanEs r

def cleanFs : List CField → Bool
  | [] => true
  | .mk k s v :: r =>
    cleanE k && (s.type == TokType.equal || s.type == TokType.colon) &&
      cleanE v && cleanFs r
end

mutual
/-- A fuel bound for the evaluation of an expression. -/
def sizeE : CExpr → Nat
  | .mk _ t tl => 1 + sizeT t + sizeTl tl

def sizeTl : CTail → Nat
  | .nil => 0
  | .binop _ e => 1 + sizeE e
  | .cond e1 e2 => 1 + sizeE e1 + sizeE e2

def sizeT : CTerm → Nat
  | .num _ => 1
  | .bare _ => 1
  | .varc _ _ _ => 2
  | .paren e => 1 + sizeE e
  | .strT ps => 3 + sizePs ps
  | .listT es => 2 + sizeEs es
  | .objT fs => 2 + sizeFs fs
  | .call _ args => 4 + sizeEs args

def sizePs : List CPiece → Nat
  | [] => 0
  | p :: r => 1 + sizeP p + sizePs r

def sizeP : CPiece → Nat
  | .lit _ => 1
  | .interp e => 3 + sizeE e

def sizeEs : List CExpr → Nat
  | [] => 0
  | e :: r => 1 + sizeE e + sizeEs r

def sizeFs : List CField → Nat
  | [] => 0
  | .mk k _ v :: r => 2 + sizeE k + sizeE v + sizeFs r
end

/-- The tokens from the current position on. -/
def SufAt (e : EngSt) (l : List Token) : Prop := e.tokens.drop e.pos = l

theorem sufAt_hasTokens {e : EngSt} {t l} (h : SufAt e (t :: l)) :
    e.hasTokens = true := by
  have hlt : e.pos < e.tokens.length := by
    by_contra hle
    unfold SufAt at h
    rw [List.drop_eq_nil_of_le (by omega)] at h
    exact List.cons_ne_nil t l h.symm
  simp [EngSt.hasTokens, hlt]

theorem sufAt_hasTokens_false {e : EngSt} (h : SufAt e []) :
    e.hasTokens = false := by
  have := List.drop_eq_nil_iff_le.mp h
  simp only [EngSt.hasTokens, decide_eq_false_iff_not]
  omega

theorem sufAt_peek {e : EngSt} {t l} (h : SufAt e (t :: l)) : e.peek = t := by
  unfold EngSt.peek
  rw [show e.tokens.drop e.pos = t :: l from h]
  rfl

theorem sufAt_peek_nil {e : EngSt} (h : SufAt e []) : e.peek = eofToken := by
  unfold EngSt.peek
  rw [show e.tokens.drop e.pos = [] from h]
  rfl

theorem sufAt_drop {e : EngSt} {l} (h : SufAt e l) (n : Nat) :
    e.tokens.drop (e.pos + n) = l.drop n := by
  rw [← h, List.drop_drop, Nat.add_comm]

theorem sufAt_peekn {e : EngSt} {l} (h : SufAt e l) (n : Nat) :
    e.peekn n = (l.drop n).headD eofToken := by
  unfold EngSt.peekn
  rw [sufAt_drop h n]

theorem sufAt_of {e e' : EngSt} {l} (h : SufAt e l) (k : Nat)
    (htok : e'.tokens = e.tokens) (hpos : e'.pos = e.pos + k) :
    SufAt e' (l.drop k) := by
  unfold SufAt
  rw [htok, hpos, sufAt_drop h k]

theorem sufAt_emit {e : EngSt} {t l nd st} (h : SufAt e (t :: l))
    (hs : e.stack = nd :: st) :
    e.emit = { e with
        pos := e.pos + 1
        stack := ⟨nd.source ++ [t], nd.evaluated ++ [t],
          nd.hasCond, nd.hasOp⟩ :: st } := by
  unfold EngSt.emit
  rw [hs, sufAt_peek h]

theorem emitnl_noop {e : EngSt} {l} (h : SufAt e l)
    (hnl : isNlOrComment (l.headD eofToken).type = false) : e.emitnl = e := by
  unfold EngSt.emitnl emitnlFuel
  match l, h with
  | [], h => rw [sufAt_hasTokens_false h]; rfl
  | t :: l, h =>
    rw [sufAt_peek h]
    simp at hnl
    simp [hnl]

theorem emitnlparens_noop {e : EngSt} {l} (h : SufAt e l)
    (hnl : isNlOrComment (l.headD eofToken).type = false) :
    e.emitnlparens = e := by
  unfold EngSt.emitnlparens
  split
  · exact emitnl_noop h hnl
  · rfl

theorem skipNewLines_noop {e : EngSt} {l} (h : SufAt e l) (i : Nat)
    (hnl : isNlOrComment ((l.drop i).headD eofToken).type = false) :
    e.skipNewLines i = i := by
  unfold EngSt.skipNewLines skipNewLinesFuel
  rw [sufAt_peekn h i, hnl]
  simp

theorem commit_eq {e : EngSt} {nd1 nd2 st} (hs : e.stack = nd1 :: nd2 :: st) :
    e.commit = .ok { e with
        stack := ⟨nd2.source ++ nd1.source, nd2.evaluated ++ nd1.evaluated,
          nd2.hasCond || nd1.hasCond, nd2.hasOp || nd1.hasOp⟩ :: st } := by
  unfold EngSt.commit
  rw [hs]

/-- Token types that may directly follow a grammar expression. -/
def isBoundary (ty : TokType) : Bool :=
  match ty with
  | .comma | .cBrack | .cBrace | .cParen | .colon | .equal
  | .templateSeqEnd | .eof => true
  | _ => false

theorem boundary_facts {ty : TokType} (h : isBoundary ty = true) :
    isNlOrComment ty = false ∧ ty ≠ .dot ∧ ty ≠ .oParen ∧ ty ≠ .oBrack ∧
    ty ≠ .question ∧ isBinOp ty = false ∧ ty ≠ .star ∧ ty ≠ .cQuote ∧
    ty ≠ .bang ∧ ty ≠ .minus ∧ ty ≠ .comment := by
  cases ty <;> simp_all [isBoundary, isNlOrComment, isBinOp, isCmpOp,
    isArithOp, isLogicOp]

theorem binop_facts {ty : TokType} (h : isBinOp ty = true) :
    isNlOrComment ty = false ∧ ty ≠ .dot ∧ ty ≠ .oParen ∧ ty ≠ .oBrack ∧
    ty ≠ .question := by
  cases ty <;> simp_all [isNlOrComment, isBinOp, isCmpOp, isArithOp,
    isLogicOp]

theorem termToks_ne_nil (t : CTerm) : termToks t ≠ [] := by
  cases t <;> simp [termToks]

theorem exprToks_def (E : CExpr) :
    exprToks E = E.1 ++ termToks E.2 ++ tailToks E.3 := by
  cases E; rfl

theorem exprToks_ne_nil (E : CExpr) : exprToks E ≠ [] := by
  cases E with
  | mk pref t tl =>
    intro h
    simp only [exprToks, List.append_assoc, List.append_eq_nil] at h
    exact termToks_ne_nil t h.2.1

/-- Token types that can begin a term. -/
def termHeadTy (ty : TokType) : Bool :=
  match ty with
  | .numberLit | .ident | .oParen | .oQuote | .oBrack | .oBrace => true
  | _ => false

theorem termToks_head (t : CTerm) :
    termHeadTy ((termToks t).headD eofToken).type = true := by
  cases t <;> rfl

/-- Token types that can begin an expression. -/
def exprHeadTy (ty : TokType) : Bool :=
  ty = .bang || ty = .minus || termHeadTy ty

theorem exprToks_head (E : CExpr) (hcl : cleanE E = true) :
    exprHeadTy ((exprToks E).headD eofToken).type = true := by
  cases E with
  | mk pref t tl =>
    cases pref with
    | nil =>
      obtain ⟨hd, l', heq⟩ := List.exists_cons_of_ne_nil (termToks_ne_nil t)
      have := termToks_head t
      rw [heq] at this
      simp only [exprToks, List.nil_append, List.append_assoc, heq,
        List.cons_append, List.headD_cons] at this ⊢
      simp [exprHeadTy, this]
    | cons p pref' =>
      simp only [cleanE, Bool.and_eq_true, List.all_cons] at hcl
      have hp := hcl.1.1.1
      simp only [exprToks, List.cons_append, List.headD_cons]
      simp only [prefOk, Bool.or_eq_true, decide_eq_true_eq] at hp
      rcases hp with hp | hp <;> simp [exprHeadTy, hp]

theorem exprToks_head_notFor (E : CExpr) (hcl : cleanE E = true) :
    isForExpr ((exprToks E).headD eofToken) = false := by
  cases E with
  | mk pref t tl =>
    cases pref with
    | cons p pref' =>
      simp only [cleanE, Bool.and_eq_true, List.all_cons] at hcl
      have hp := hcl.1.1.1
      simp only [exprToks, List.cons_append, List.headD_cons]
      simp only [prefOk, Bool.or_eq_true, decide_eq_true_eq] at hp
      rcases hp with hp | hp <;> simp [isForExpr, hp]
    | nil =>
      simp only [cleanE, Bool.and_eq_true] at hcl
      have hct := hcl.1.2
      simp only [exprToks, List.nil_append, List.append_assoc]
      cases t with
      | bare b =>
        simp only [cleanT, Bool.not_eq_true', beq_eq_false_iff_ne,
          ne_eq] at hct
        simp [termToks, isForExpr, hct]
      | varc root c0 chain =>
        simp only [cleanT, Bool.not_eq_true', Bool.or_eq_false_iff,
          beq_eq_false_iff_ne, ne_eq] at hct
        simp [termToks, isForExpr, hct.1.1.1.2]
      | call f args =>
        simp only [cleanT, Bool.and_eq_true, Bool.not_eq_true',
          Bool.or_eq_false_iff, beq_eq_false_iff_ne, ne_eq] at hct
        simp [termToks, isForExpr, hct.1.1.1.1.1]
      | num b => simp [termToks, isForExpr]
      | paren e => simp [termToks, isForExpr]
      | strT ps => simp [termToks, isForExpr, tokenOQuote]
      | listT es => simp [termToks, isForExpr, tokenOBrack]
      | objT fs => simp [termToks, isForExpr]

theorem termHeadTy_facts {ty : TokType} (h : termHeadTy ty = true) :
    isNlOrComment ty = false ∧ ty ≠ .bang ∧ ty ≠ .minus ∧ ty ≠ .comment ∧
    ty ≠ .cBrack ∧ ty ≠ .cBrace ∧ ty ≠ .cParen ∧ ty ≠ .cQuote ∧
    ty ≠ .eof := by
  cases ty <;> simp_all [termHeadTy, isNlOrComment]

theorem exprHeadTy_facts {ty : TokType} (h : exprHeadTy ty = true) :
    isNlOrComment ty = false ∧ ty ≠ .cBrack ∧ ty ≠ .cBrace ∧
    ty ≠ .cParen ∧ ty ≠ .cQuote ∧ ty ≠ .eof ∧ ty ≠ .templateSeqEnd ∧
    ty ≠ .comma ∧ ty ≠ .colon ∧ ty ≠ .equal := by
  cases ty <;> simp_all [exprHeadTy, termHeadTy, isNlOrComment]

theorem evalExprPrefix_eq : ∀ (pref : List Token) (f : Nat) (e : EngSt)
    (l : List Token) (nd : ENode) (st : List ENode),
    (∀ t ∈ pref, prefOk t = true) → pref.length < f →
    SufAt e (pref ++ l) → e.stack = nd :: st →
    isNlOrComment (l.headD eofToken).type = false →
    (l.headD eofToken).type ≠ .bang →
    (l.headD eofToken).type ≠ .minus →
    (l.headD eofToken).type ≠ .comment →
    evalExprPrefix f e = { e with
        pos := e.pos + pref.length
        stack := ⟨nd.source ++ pref, nd.evaluated ++ pref,
          nd.hasCond, nd.hasOp⟩ :: st }
  | [], f, e, l, nd, st, _, hf, hsuf, hs, hnl, h1, h2, h3 => by
    obtain ⟨g, rfl⟩ : ∃ g, f = g + 1 := ⟨f - 1, by omega⟩
    rw [List.nil_append] at hsuf
    have hpk : e.peek = l.headD eofToken := by
      cases l with
      | nil => exact sufAt_peek_nil hsuf
      | cons t l' => rw [sufAt_peek hsuf]; rfl
    unfold evalExprPrefix
    simp only [emitnlparens_noop hsuf hnl, hpk]
    have hres : e = { e with
        pos := e.pos + ([] : List Token).length
        stack := ⟨nd.source ++ ([] : List Token),
          nd.evaluated ++ ([] : List Token),
          nd.hasCond, nd.hasOp⟩ :: st } := by
      simp only [List.append_nil, List.length_nil, Nat.add_zero, ← hs]
    exact hres
  | p :: pref', f, e, l, nd, st, hp, hf, hsuf, hs, hnl, h1, h2, h3 => by
    obtain ⟨g, rfl⟩ : ∃ g, f = g + 1 := ⟨f - 1, by omega⟩
    rw [List.cons_append] at hsuf
    have hppre := hp p (List.mem_cons_self p pref')
    simp only [prefOk, Bool.or_eq_true, decide_eq_true_eq] at hppre
    have hpnl : isNlOrComment ((p :: (pref' ++ l)).headD eofToken).type
        = false := by
      rcases hppre with h | h <;> simp [isNlOrComment, h]
    have hemit := sufAt_emit hsuf hs
    have hsuf1 : SufAt e.emit (pref' ++ l) := by
      have := @sufAt_of e e.emit _ hsuf 1 (by rw [hemit]) (by rw [hemit])
      simpa using this
    have hs1 : e.emit.stack =
        (⟨nd.source ++ [p], nd.evaluated ++ [p],
          nd.hasCond, nd.hasOp⟩ : ENode) :: st := by rw [hemit]
    have IH := evalExprPrefix_eq pref' g e.emit l
      ⟨nd.source ++ [p], nd.evaluated ++ [p], nd.hasCond, nd.hasOp⟩ st
      (fun t ht => hp t (List.mem_cons_of_mem p ht)) (by simp at hf ⊢; omega)
      hsuf1 hs1 hnl h1 h2 h3
    unfold evalExprPrefix
    simp only [emitnlparens_noop hsuf hpnl, sufAt_peek hsuf]
    rcases hppre with hb | hb <;> rw [hb] <;>
      (show evalExprPrefix g e.emit = _) <;> rw [IH] <;>
      rw [hemit] <;>
      simp [EngSt.mk.injEq, List.append_assoc, List.singleton_append] <;>
      omega

theorem chainToks_length (ch : List String) :
    (chainToks ch).length = 2 * ch.length := by
  induction ch with
  | nil => rfl
  | cons c r ih => simp [chainToks, ih]; omega

theorem sufAt_pos_lt {e : EngSt} {l} (h : SufAt e l) {k : Nat}
    (hk : k < l.length) : e.pos + k < e.tokens.length := by
  have hd := sufAt_drop h k
  have : (l.drop k).length = l.length - k := List.length_drop k l
  have hne : l.drop k ≠ [] := by
    intro hnil; rw [hnil] at this; simp at this; omega
  have : e.tokens.drop (e.pos + k) ≠ [] := by rw [hd]; exact hne
  by_contra hge
  rw [List.drop_eq_nil_of_le (by omega)] at this
  exact this rfl

theorem parseVarLoop_adv : ∀ (ch : List String) (fuel : Nat) (e : EngSt)
    (l rest : List Token) (pos : Nat),
    SufAt e l →
    l.drop pos = chainToks ch ++ rest → pos ≤ l.length →
    2 * ch.length < fuel →
    isNlOrComment ((rest.headD eofToken).type) = false →
    (rest.headD eofToken).type ≠ .dot →
    parseVarLoop fuel e l.length pos true = pos + 2 * ch.length
  | [], fuel, e, l, rest, pos, hsuf, hdrop, hple, hfuel, hrnl, hrdot => by
    obtain ⟨g, rfl⟩ : ∃ g, fuel = g + 1 := ⟨fuel - 1, by omega⟩
    rw [chainToks, List.nil_append] at hdrop
    unfold parseVarLoop
    by_cases hlt : pos < l.length
    · have hne : rest ≠ [] := by
        intro hnil
        rw [hnil, List.drop_eq_nil_iff_le] at hdrop
        omega
      obtain ⟨rt, rest', rfl⟩ := List.exists_cons_of_ne_nil hne
      have hskip : e.skipNewLines pos = pos := by
        refine skipNewLines_noop hsuf pos ?_
        rw [hdrop]; simpa using hrnl
      have hpeekn : e.peekn pos = rt := by
        rw [sufAt_peekn hsuf pos, hdrop]; rfl
      have hrt : rt.type ≠ TokType.dot := by simpa using hrdot
      simp only [hlt, if_true, hskip, ite_self, hpeekn]
      rw [if_pos hrt]
      simp
    · simp only [hlt, if_false]
      simp
  | c :: ch', fuel, e, l, rest, pos, hsuf, hdrop, hple, hfuel, hrnl, hrdot => by
    obtain ⟨g, rfl⟩ : ∃ g, fuel = g + 1 := ⟨fuel - 1, by omega⟩
    simp only [List.length_cons] at hfuel
    obtain ⟨g', rfl⟩ : ∃ g', g = g' + 1 := ⟨g - 1, by omega⟩
    rw [chainToks, List.cons_append, List.cons_append] at hdrop
    have hlen : (l.drop pos).length = l.length - pos := List.length_drop pos l
    have hlt : pos < l.length := by
      rw [hdrop] at hlen; simp at hlen; omega
    have hlt1 : pos + 1 < l.length := by
      rw [hdrop] at hlen; simp at hlen; omega
    have hdrop1 : l.drop (pos + 1) =
        ⟨.ident, c⟩ :: (chainToks ch' ++ rest) := by
      have h2 : l.drop (pos + 1) = (l.drop pos).drop 1 := by
        rw [List.drop_drop, Nat.add_comm]
      rw [h2, hdrop]; rfl
    have hdrop2 : l.drop (pos + 2) = chainToks ch' ++ rest := by
      have h2 : l.drop (pos + 2) = (l.drop pos).drop 2 := by
        rw [List.drop_drop, Nat.add_comm]
      rw [h2, hdrop]; rfl
    have hskip : e.skipNewLines pos = pos := by
      refine skipNewLines_noop hsuf pos ?_
      rw [hdrop]; rfl
    have hpeekn : e.peekn pos = ⟨.dot, "."⟩ := by
      rw [sufAt_peekn hsuf pos, hdrop]; rfl
    have hskip1 : e.skipNewLines (pos + 1) = pos + 1 := by
      refine skipNewLines_noop hsuf (pos + 1) ?_
      rw [hdrop1]; rfl
    have hpeekn1 : e.peekn (pos + 1) = ⟨.ident, c⟩ := by
      rw [sufAt_peekn hsuf (pos + 1), hdrop1]; rfl
    have IH := parseVarLoop_adv ch' g' e l rest (pos + 2) hsuf hdrop2
      (by omega) (by omega) hrnl hrdot
    unfold parseVarLoop
    simp only [hlt, if_true, hskip, ite_self, hpeekn]
    show parseVarLoop (g' + 1) e l.length (pos + 1) false = _
    unfold parseVarLoop
    simp only [hlt1, if_true, hskip1, ite_self, hpeekn1]
    show parseVarLoop g' e l.length (pos + 2) true = _
    rw [IH]
    simp [List.length_cons]
    omega

theorem varcToks_eq (root c0 : String) (ch : List String) :
    termToks (.varc root c0 ch) =
      ⟨.ident, root⟩ :: ⟨.dot, "."⟩ :: ⟨.ident, c0⟩ :: chainToks ch := rfl

theorem varcToks_length (root c0 : String) (ch : List String) :
    (termToks (.varc root c0 ch)).length = 3 + 2 * ch.length := by
  rw [varcToks_eq]
  simp [chainToks_length]
  omega

theorem parseVariable_varc (root c0 : String) (ch : List String) (e : EngSt)
    (rest : List Token)
    (hsuf : SufAt e (termToks (.varc root c0 ch) ++ rest))
    (hnl : isNlOrComment ((rest.headD eofToken).type) = false)
    (hdot : (rest.headD eofToken).type ≠ .dot)
    (hbrack : (rest.headD eofToken).type ≠ .oBrack) :
    parseVariable e = .ok (some ⟨termToks (.varc root c0 ch), [],
      decide (root = "global" ∨ root = "terramate")⟩) := by
  have hseq : e.tokens.drop e.pos = termToks (.varc root c0 ch) ++ rest := hsuf
  have hTlen := varcToks_length root c0 ch
  have hslen : (termToks (.varc root c0 ch) ++ rest).length =
      3 + 2 * ch.length + rest.length := by
    simp [hTlen]
  have htotlen : e.pos + (3 + 2 * ch.length + rest.length) ≤
      e.tokens.length := by
    have h1 := List.length_drop e.pos e.tokens
    rw [hseq, hslen] at h1
    omega
  have hskip1 : e.skipNewLines 1 = 1 := by
    refine skipNewLines_noop hsuf 1 ?_
    rw [varcToks_eq]; rfl
  have hdrop1 : (termToks (.varc root c0 ch) ++ rest).drop 1 =
      chainToks (c0 :: ch) ++ rest := by
    rw [varcToks_eq, chainToks]; rfl
  have hloop := parseVarLoop_adv (c0 :: ch) (e.tokens.length + 1) e
    (termToks (.varc root c0 ch) ++ rest) rest 1 hsuf hdrop1
    (by rw [hslen]; omega)
    (by simp only [List.length_cons]; omega) hnl hdot
  unfold parseVariable
  simp only [hseq, hskip1, hloop]
  rw [if_neg (by rw [hslen]; omega)]
  rw [varcToks_eq]
  simp only [List.cons_append, List.headD_cons]
  rw [if_neg (by simp)]
  simp only [List.length_cons] at hloop ⊢
  have hpos : 1 + 2 * (ch.length + 1) = 3 + 2 * ch.length := by omega
  rw [if_neg (by omega)]
  have hAeq : (⟨.ident, root⟩ : Token) :: ⟨.dot, "."⟩ :: ⟨.ident, c0⟩ ::
      (chainToks ch ++ rest) = termToks (.varc root c0 ch) ++ rest := by
    rw [varcToks_eq]; simp
  have htake : ((⟨.ident, root⟩ : Token) :: ⟨.dot, "."⟩ :: ⟨.ident, c0⟩ ::
      (chainToks ch ++ rest)).take (1 + 2 * (ch.length + 1)) =
      termToks (.varc root c0 ch) := by
    rw [hpos, hAeq]
    refine List.take_left' ?_
    rw [hTlen]
  have hdropP : ((⟨.ident, root⟩ : Token) :: ⟨.dot, "."⟩ :: ⟨.ident, c0⟩ ::
      (chainToks ch ++ rest)).drop (1 + 2 * (ch.length + 1)) = rest := by
    rw [hpos, hAeq]
    refine List.drop_left' ?_
    rw [hTlen]
  simp only [htake, hdropP]
  rw [if_neg ?_]
  · rfl
  · rintro ⟨hlt, htyp⟩
    cases rest with
    | nil =>
      simp at hlt
      simp [chainToks_length] at hlt
      omega
    | cons rt rest' =>
      simp at htyp
      exact hbrack htyp

theorem evalVar_varc (ctx : ECtx) (root c0 : String) (ch : List String)
    (e : EngSt) (rest : List Token)
    (hsuf : SufAt e (termToks (.varc root c0 ch) ++ rest))
    (hnl : isNlOrComment ((rest.headD eofToken).type) = false)
    (hdot : (rest.headD eofToken).type ≠ .dot)
    (hbrack : (rest.headD eofToken).type ≠ .oBrack)
    (hg : root ≠ "global") (ht : root ≠ "terramate") :
    evalVar ctx e = .ok { e with
        pos := e.pos + (termToks (.varc root c0 ch)).length
        stack := ⟨termToks (.varc root c0 ch), termToks (.varc root c0 ch),
          false, false⟩ :: e.stack } := by
  have hsuf1 : SufAt e.newnode (termToks (.varc root c0 ch) ++ rest) := hsuf
  have hpv := parseVariable_varc root c0 ch e.newnode rest hsuf1 hnl hdot hbrack
  have hdec : decide (root = "global" ∨ root = "terramate") = false := by
    simp [hg, ht]
  unfold evalVar
  simp only [hpv, hdec]
  have hsz : (EngVar.mk (termToks (.varc root c0 ch)) [] false).size =
      (termToks (.varc root c0 ch)).length := by
    simp [EngVar.size]
  have hall : (EngVar.mk (termToks (.varc root c0 ch)) [] false).alltokens =
      termToks (.varc root c0 ch) := by
    simp [EngVar.alltokens]
  show Except.ok (e.newnode.emitVariable
      ⟨termToks (.varc root c0 ch), [], false⟩) = _
  unfold EngSt.emitVariable EngSt.newnode
  simp only [hsz, hall]
  have hseq : e.tokens.drop e.pos = termToks (.varc root c0 ch) ++ rest := hsuf
  simp only [hseq]
  rw [List.take_left' rfl]
  simp [ENode.empty]

theorem sizeE_pos (E : CExpr) : 1 ≤ sizeE E := by
  cases E; simp [sizeE]; omega

theorem isSameTokens_self (l : List Token) : isSameTokens l l = true := by
  simp [isSameTokens]

theorem sufAt_len {e : EngSt} {l} (h : SufAt e l) :
    l.length ≤ e.tokens.length := by
  have := List.length_drop e.pos e.tokens
  rw [show e.tokens.drop e.pos = l from h] at this
  omega

theorem tailToks_head_facts (tl : CTail) (rest : List Token)
    (hcl : cleanTl tl = true)
    (hb : isBoundary ((rest.headD eofToken).type) = true) :
    isNlOrComment (((tailToks tl ++ rest).headD eofToken).type) = false ∧
    ((tailToks tl ++ rest).headD eofToken).type ≠ .dot ∧
    ((tailToks tl ++ rest).headD eofToken).type ≠ .oParen ∧
    ((tailToks tl ++ rest).headD eofToken).type ≠ .oBrack := by
  cases tl with
  | nil =>
    simp only [tailToks, List.nil_append]
    have := boundary_facts hb
    exact ⟨this.1, this.2.1, this.2.2.1, this.2.2.2.1⟩
  | binop op E2 =>
    simp only [cleanTl, Bool.and_eq_true] at hcl
    have := binop_facts hcl.1
    simp only [tailToks, List.cons_append, List.headD_cons]
    exact ⟨this.1, this.2.1, this.2.2.1, this.2.2.2.1⟩
  | cond E1 E2 =>
    simp only [tailToks, List.cons_append, List.headD_cons]
    refine ⟨rfl, by simp, by simp, by simp⟩

theorem canEval_false_after (e : EngSt) (b : String) (tl : CTail)
    (rest : List Token)
    (hsuf : SufAt e (⟨.ident, b⟩ :: (tailToks tl ++ rest)))
    (hcl : cleanTl tl = true)
    (hb : isBoundary ((rest.headD eofToken).type) = true) :
    e.canEvaluateIdent = false := by
  have hfacts := tailToks_head_facts tl rest hcl hb
  unfold EngSt.canEvaluateIdent
  have hseq : e.tokens.drop e.pos = ⟨.ident, b⟩ :: (tailToks tl ++ rest) :=
    hsuf
  rw [hseq]
  cases htr : tailToks tl ++ rest with
  | nil => simp
  | cons nx xs =>
    rw [htr] at hfacts
    simp only [List.headD_cons] at hfacts
    have hskip : e.skipNewLines 1 = 1 := by
      refine skipNewLines_noop hsuf 1 ?_
      simp only [List.drop_succ_cons, List.drop_zero, htr, List.headD_cons]
      exact hfacts.1
    have hpk : e.peekn 1 = nx := by
      rw [sufAt_peekn hsuf 1]
      simp [htr]
    rw [if_neg (by simp)]
    simp only [hskip]
    simp [hpk, hfacts.2.1, hfacts.2.2.1]

/-- The scratch node of one string piece. -/
def pieceNode (p : CPiece) : ENode := ⟨pieceToks p, pieceToks p, false, false⟩

theorem stringPartsFold_pieces : ∀ (ps : List CPiece) (src ev : List Token)
    (ls : Bool),
    ∃ b, stringPartsFold (ps.map pieceNode) (src, ev, ls) =
      .ok (src ++ piecesToks ps, ev ++ piecesToks ps, b)
  | [], src, ev, ls => ⟨ls, by simp [stringPartsFold, piecesToks]⟩
  | .lit s :: ps', src, ev, ls => by
    obtain ⟨b, hb⟩ := stringPartsFold_pieces ps'
      (src ++ [⟨.quotedLit, s⟩]) (ev ++ [⟨.quotedLit, s⟩]) true
    refine ⟨b, ?_⟩
    simp only [List.map_cons]
    show stringPartsFold (pieceNode (.lit s) :: ps'.map pieceNode)
      (src, ev, ls) = _
    unfold stringPartsFold
    simp only [pieceNode, pieceToks, List.head?_cons, List.length_singleton]
    rw [if_neg (by omega)]
    rw [hb]
    simp [piecesToks, pieceToks]
  | .interp e :: ps', src, ev, ls => by
    obtain ⟨b, hb⟩ := stringPartsFold_pieces ps'
      (src ++ pieceToks (.interp e)) (ev ++ pieceToks (.interp e)) true
    refine ⟨b, ?_⟩
    simp only [List.map_cons]
    show stringPartsFold (pieceNode (.interp e) :: ps'.map pieceNode)
      (src, ev, ls) = _
    unfold stringPartsFold
    have hhead : (pieceNode (.interp e)).evaluated.head? =
        some ⟨.templateInterp, "$\x7b"⟩ := by
      simp [pieceNode, pieceToks]
    rw [hhead]
    show stringPartsFold (ps'.map pieceNode)
      (src ++ (pieceNode (.interp e)).source,
       ev ++ (pieceNode (.interp e)).evaluated, true) = _
    rw [show (pieceNode (.interp e)).source = pieceToks (.interp e) from rfl,
        show (pieceNode (.interp e)).evaluated = pieceToks (.interp e) from
          rfl, hb]
    simp [piecesToks]

theorem head_notNl_of_elems (es : List CExpr) (tail : List Token)
    (hcl : cleanEs es = true)
    (htail : isNlOrComment ((tail.headD eofToken).type) = false) :
    isNlOrComment (((elemsToks es ++ tail).headD eofToken).type) = false := by
  cases es with
  | nil => simp only [elemsToks, List.nil_append]; exact htail
  | cons a es' =>
    simp only [cleanEs, Bool.and_eq_true] at hcl
    obtain ⟨hd, l', heq⟩ := List.exists_cons_of_ne_nil (exprToks_ne_nil a)
    have hh := exprToks_head a hcl.1
    rw [heq] at hh
    simp only [List.headD_cons] at hh
    simp only [elemsToks, heq, List.append_assoc, List.cons_append,
      List.headD_cons]
    exact (exprHeadTy_facts hh).1

theorem head_notFor_of_elems (es : List CExpr) (tail : List Token)
    (hcl : cleanEs es = true)
    (htail : isForExpr (tail.headD eofToken) = false) :
    isForExpr ((elemsToks es ++ tail).headD eofToken) = false := by
  cases es with
  | nil => simp only [elemsToks, List.nil_append]; exact htail
  | cons a es' =>
    simp only [cleanEs, Bool.and_eq_true] at hcl
    obtain ⟨hd, l', heq⟩ := List.exists_cons_of_ne_nil (exprToks_ne_nil a)
    have hh := exprToks_head_notFor a hcl.1
    rw [heq] at hh
    simp only [List.headD_cons] at hh
    simp only [elemsToks, heq, List.append_assoc, List.cons_append,
      List.headD_cons]
    exact hh

theorem head_notNl_of_fields (fs : List CField) (tail : List Token)
    (hcl : cleanFs fs = true)
    (htail : isNlOrComment ((tail.headD eofToken).type) = false) :
    isNlOrComment (((fieldsToks fs ++ tail).headD eofToken).type)
      = false := by
  cases fs with
  | nil => simp only [fieldsToks, List.nil_append]; exact htail
  | cons f fs' =>
    obtain ⟨k, s, v⟩ := f
    simp only [cleanFs, Bool.and_eq_true] at hcl
    obtain ⟨hd, l', heq⟩ := List.exists_cons_of_ne_nil (exprToks_ne_nil k)
    have hh := exprToks_head k hcl.1.1.1
    rw [heq] at hh
    simp only [List.headD_cons] at hh
    simp only [fieldsToks, heq, List.append_assoc, List.cons_append,
      List.headD_cons]
    exact (exprHeadTy_facts hh).1

theorem head_notFor_of_fields (fs : List CField) (tail : List Token)
    (hcl : cleanFs fs = true)
    (htail : isForExpr (tail.headD eofToken) = false) :
    isForExpr ((fieldsToks fs ++ tail).headD eofToken) = false := by
  cases fs with
  | nil => simp only [fieldsToks, List.nil_append]; exact htail
  | cons f fs' =>
    obtain ⟨k, s, v⟩ := f
    simp only [cleanFs, Bool.and_eq_true] at hcl
    obtain ⟨hd, l', heq⟩ := List.exists_cons_of_ne_nil (exprToks_ne_nil k)
    have hh := exprToks_head_notFor k hcl.1.1.1
    rw [heq] at hh
    simp only [List.headD_cons] at hh
    simp only [fieldsToks, heq, List.append_assoc, List.cons_append,
      List.headD_cons]
    exact hh

theorem head_notNl_of_args (args : List CExpr) (tail : List Token)
    (hcl : cleanEs args = true)
    (htail : isNlOrComment ((tail.headD eofToken).type) = false) :
    isNlOrComment (((argsToks args ++ tail).headD eofToken).type)
      = false := by
  cases args with
  | nil => simp only [argsToks, List.nil_append]; exact htail
  | cons a as' =>
    simp only [cleanEs, Bool.and_eq_true] at hcl
    obtain ⟨hd, l', heq⟩ := List.exists_cons_of_ne_nil (exprToks_ne_nil a)
    have hh := exprToks_head a hcl.1
    rw [heq] at hh
    simp only [List.headD_cons] at hh
    simp only [argsToks, heq, List.append_assoc, List.cons_append,
      List.headD_cons]
    exact (exprHeadTy_facts hh).1
